import Mathlib

/-!
Chat relay server: registry, command dispatcher and broadcaster.

A shallow embedding of `src/server/main.cpp`.

* The globals `rooms` (a `std::vector<Room>`) and `clients` (a
  `std::map<int,Client>`) form the `Registry`; every function that touches them
  takes the registry and returns the new one.
* `std::set<int>` is a `Finset Int`, iterated in ascending order
  (`sortedHandles`); `std::map<int,Client>` is a `Finmap`, iterated in
  ascending key order (`entries`).
* `send(fd, msg)` is recorded as the pair `(fd, msg)` appended to the list of
  sends of the step, in program order.
* A `std::string` is a `String` and the receive buffer a list of `Char`, one
  `Char` standing for one byte.
* An out-of-bounds `rooms[i]` is undefined behaviour in C++; the functions that
  index the vector return `Option` and yield `none` there.
* A step of a session is `handleUnit`.  For every branch but a successful
  `/join` it is the whole loop iteration: such an iteration has at most one
  critical section, and the step is taken at the moment of that section.  A
  successful `/join` has three critical sections (the guarded block, then one
  in each of its two `broadcast` calls), and other sessions may act between
  them: its step is the guarded block, and the two calls are returned as
  `Outcome.calls`, to be run by `runCall` on a later registry (`Later`).
* `(int)rooms.size()` is taken as the exact length: the vector never grows
  past `MAX_ROOMS`.
* Where the mutex matters, one loop iteration is also given as its run of
  events (`unitTrace`): guard taken, guard released, registry access, send.
-/

namespace ChatServer

/-- The constant `constexpr int MAX_ROOMS = 10`. -/
def MAX_ROOMS : Int := 10

/-- The constant `constexpr int MAX_CLIENTS_PER_ROOM = 40`. -/
def MAX_CLIENTS_PER_ROOM : Nat := 40

/-- The `struct Client`: socket fd, nickname (empty when unset), room (-1: none). -/
structure Client where
  sock : Int
  nick : String
  room_id : Int
deriving DecidableEq, Repr

/-- The default arguments of the constructor: `Client(-1, "", -1)`. -/
instance : Inhabited Client := ⟨⟨-1, "", -1⟩⟩

/-- The `struct Room`: a name and the set of member sockets. -/
structure Room where
  name : String
  clients : Finset Int

instance : DecidableEq Room := fun a b =>
  decidable_of_iff (a.name = b.name ∧ a.clients = b.clients)
    (by cases a; cases b; simp)

/-- The type `std::map<int,Client>` of the client table. -/
abbrev ClientMap := Finmap (fun _ : Int => Client)

/-- The globals `rooms` and `clients`. -/
structure Registry where
  rooms : List Room
  clients : ClientMap

instance : DecidableEq Registry := fun a b =>
  decidable_of_iff (a.rooms = b.rooms ∧ a.clients = b.clients)
    (by cases a; cases b; simp)

/-- One `send(fd, data, size, 0)`: the destination and the bytes. -/
abbrev Send := Int × String

/-- One call `broadcast(room_id, msg, except)` that a session thread makes
after it has left a guarded block. The call takes its own snapshot of the room
when it runs, on the registry of that moment (`runCall`), which other sessions
may have changed in between. -/
structure Call where
  room_id : Int
  msg : String
  except : Int
deriving DecidableEq

/-- What one step of the receive loop leaves behind: the registry, the sends
it performed in order, whether the loop was left (`break`), and the `broadcast`
calls that the iteration makes after this step, each in a later critical
section of its own. -/
structure Outcome where
  state : Registry
  sends : List Send
  quit : Bool
  calls : List Call

instance : DecidableEq Outcome := fun a b =>
  decidable_of_iff
    (a.state = b.state ∧ a.sends = b.sends ∧ a.quit = b.quit ∧ a.calls = b.calls)
    (by cases a; cases b; simp)

/-- Equality test on optional results, comparing the payloads with their own
test (the sets and the table are compared up to the order of their entries). -/
instance decEqResult {α : Type} [DecidableEq α] : DecidableEq (Option α)
  | none, none => isTrue rfl
  | none, some _ => isFalse (fun h => Option.noConfusion h)
  | some _, none => isFalse (fun h => Option.noConfusion h)
  | some a, some b => decidable_of_iff (a = b) (by simp)

/-- The registry at process start: no room, no client. -/
def Registry.empty : Registry := ⟨[], ∅⟩

/-! ## Containers -/

/-- Iteration order of a `std::set<int>`: ascending. -/
def sortedHandles (s : Finset Int) : List Int :=
  Quot.liftOn s.val (List.insertionSort (· ≤ ·)) (fun a b h =>
    List.eq_of_perm_of_sorted
      ((List.perm_insertionSort _ a).trans (h.trans (List.perm_insertionSort _ b).symm))
      (List.sorted_insertionSort _ a) (List.sorted_insertionSort _ b))

/-- Iteration order of the client table: `(key, value)` by ascending key. -/
def entries (m : ClientMap) : List (Int × Client) :=
  (sortedHandles m.keys).filterMap (fun k => (m.lookup k).map (fun c => (k, c)))

/-- The expression `clients[sock]` (`std::map::operator[]`): the entry, and the
table, which gains a default-constructed entry when the key was absent. -/
def subscript (m : ClientMap) (sock : Int) : Client × ClientMap :=
  match m.lookup sock with
  | some c => (c, m)
  | none => (default, m.insert sock default)

/-- The expression `rooms[i]` for an `int` index. -/
def roomAt (rooms : List Room) (i : Int) : Option Room :=
  if 0 ≤ i then rooms[i.toNat]? else none

/-- The statement `rooms[i].clients.erase(sock)`. -/
def eraseMember (rooms : List Room) (i : Int) (sock : Int) : Option (List Room) :=
  match roomAt rooms i with
  | none => none
  | some r => some (rooms.set i.toNat { r with clients := r.clients.erase sock })

/-- The statement `rooms[i].clients.insert(sock)`. -/
def insertMember (rooms : List Room) (i : Int) (sock : Int) : Option (List Room) :=
  match roomAt rooms i with
  | none => none
  | some r => some (rooms.set i.toNat { r with clients := insert sock r.clients })

/-! ## Reading the received buffer -/

/-- The function `isspace` in the "C" locale. -/
def isspace (c : Char) : Bool :=
  c == ' ' || c == '\t' || c == '\n' || c == '\x0b' || c == '\x0c' || c == '\r'

/-- The buffer read as a C string (`buf[len] = 0`, then `std::string(buf)`):
the bytes before the first NUL. -/
def cstr (buf : List Char) : List Char :=
  buf.takeWhile (fun c => c != '\x00')

/-- Extraction `iss >> word`: skip white space, take the characters up to the
next white space; returns the word and the rest of the stream. -/
def readWord (s : List Char) : String × List Char :=
  let t := s.dropWhile isspace
  (String.mk (t.takeWhile (fun c => !isspace c)), t.dropWhile (fun c => !isspace c))

/-- Value of a run of decimal digits. -/
def digitsValue (ds : List Char) : Nat :=
  ds.foldl (fun a c => 10 * a + (c.toNat - 48)) 0

/-- Extraction `iss >> id` for an `int`: skip white space, an optional sign,
then decimal digits; fails without a digit or outside the range of `int`. -/
def readInt (s : List Char) : Option Int :=
  let t := s.dropWhile isspace
  let signed : Bool × List Char :=
    match t with
    | '-' :: r => (true, r)
    | '+' :: r => (false, r)
    | _ => (false, t)
  let ds := signed.2.takeWhile Char.isDigit
  if ds.isEmpty then none
  else
    let v : Int := if signed.1 then -(digitsValue ds : Int) else (digitsValue ds : Int)
    if -2147483648 ≤ v ∧ v ≤ 2147483647 then some v else none

/-- The call `getline(iss, msg)`: the characters up to the next newline. -/
def getline (s : List Char) : String :=
  String.mk (s.takeWhile (fun c => c != '\n'))

/-! ## Broadcaster -/

/-- The function `broadcast(room_id, msg, except)`: snapshot the members of the
room other than `except`, then send `msg` to each, in ascending order. -/
def broadcast (st : Registry) (room_id : Int) (msg : String) (except : Int) :
    Option (Registry × List Send) :=
  match roomAt st.rooms room_id with
  | none => none
  | some r =>
    let targets := (sortedHandles r.clients).filter (fun s => s != except)
    some (st, targets.map (fun s => (s, msg)))

/-! ## Command dispatcher -/

/-- The loop of `/nick`: does some entry of the table carry this nickname. -/
def nickExists (m : ClientMap) (name : String) : Bool :=
  (entries m).any (fun p => p.2.nick == name)

/-- The loop of `/w`: the first entry, by ascending key, with this nickname. -/
def findNick (m : ClientMap) (target : String) : Option Int :=
  ((entries m).find? (fun p => p.2.nick == target)).map Prod.fst

/-- The assignment `clients[sock].nick = name`. -/
def setNick (st : Registry) (sock : Int) (name : String) : Registry :=
  let e := subscript st.clients sock
  { st with clients := e.2.insert sock { e.1 with nick := name } }

/-- The assignment `clients[sock].room_id = id`. -/
def setRoom (m : ClientMap) (sock : Int) (id : Int) : ClientMap :=
  let e := subscript m sock
  e.2.insert sock { e.1 with room_id := id }

/-- Branch `/nick`. -/
def cmdNick (st : Registry) (sock : Int) (rest : List Char) : Outcome :=
  let name := (readWord rest).1
  if name = "" then ⟨st, [(sock, "Invalid nickname\n")], false, []⟩
  else if nickExists st.clients name then ⟨st, [(sock, "Nickname in use\n")], false, []⟩
  else ⟨setNick st sock name, [(sock, "Nickname set\n")], false, []⟩

/-- The lines of the room listing, from index `i` on. -/
def listLines : Nat → List Room → String
  | _, [] => ""
  | i, r :: rs =>
    toString i ++ ". " ++ r.name ++ " (" ++ toString r.clients.card ++ "/"
      ++ toString MAX_CLIENTS_PER_ROOM ++ ")\n" ++ listLines (i + 1) rs

/-- Branch `/list`. -/
def cmdList (st : Registry) (sock : Int) : Outcome :=
  ⟨st, [(sock, "Rooms:\n" ++ listLines 0 st.rooms)], false, []⟩

/-- Branch `/create`. -/
def cmdCreate (st : Registry) (sock : Int) (rest : List Char) : Outcome :=
  let rname := (readWord rest).1
  if MAX_ROOMS ≤ (st.rooms.length : Int) then ⟨st, [(sock, "Max rooms reached\n")], false, []⟩
  else ⟨{ st with rooms := st.rooms ++ [⟨rname, ∅⟩] }, [(sock, "Room created\n")], false, []⟩

/-- The registry mutation of a successful `/join` (the `else` block under the
lock): leave the previous room, record the new one, enter it. -/
def joinState (st : Registry) (sock : Int) (id : Int) : Option Registry :=
  let e := subscript st.clients sock
  let prev := e.1.room_id
  (if 0 ≤ prev then eraseMember st.rooms prev sock else some st.rooms).bind fun rooms1 =>
  (insertMember rooms1 id sock).map fun rooms2 =>
  ⟨rooms2, setRoom st.clients sock id⟩

/-- Branch `/join` as far as the end of its guarded block (lines 125 to 155):
the usage check, the two rejections, and on success the registry mutation and
the reply, all inside the block. The two `broadcast` calls that follow the
block (lines 157 to 162) are returned as `calls`, the leave notice first: the
source has released the mutex by then, and each call takes its own snapshot
later, on the registry of that moment. -/
def cmdJoin (st : Registry) (sock : Int) (rest : List Char) : Option Outcome :=
  match readInt rest with
  | none => some ⟨st, [(sock, "Usage: /join <room_id>\n")], false, []⟩
  | some id =>
    if id < 0 ∨ (st.rooms.length : Int) ≤ id then
      some ⟨st, [(sock, "No such room\n")], false, []⟩
    else
      (roomAt st.rooms id).bind fun target =>
      if MAX_CLIENTS_PER_ROOM ≤ target.clients.card then
        some ⟨st, [(sock, "Room full\n")], false, []⟩
      else
        let e := subscript st.clients sock
        let prev := e.1.room_id
        let leaveMsg := if 0 ≤ prev then e.1.nick ++ " left room " ++ toString prev ++ "\n" else ""
        let joinMsg := e.1.nick ++ " joined room " ++ toString id ++ "\n"
        let sendJoinMsg : Bool := e.1.nick != ""
        (joinState st sock id).map fun st1 =>
        ⟨st1, [(sock, "Joined room\n")], false,
          (if 0 ≤ prev ∧ leaveMsg ≠ "" then [(⟨prev, leaveMsg, sock⟩ : Call)] else []) ++
          (if sendJoinMsg = true ∧ joinMsg ≠ "" then [(⟨id, joinMsg, sock⟩ : Call)] else [])⟩

/-- A call made later: `broadcast` on the registry `st` of the moment the call
runs. -/
def runCall (st : Registry) (c : Call) : Option (Registry × List Send) :=
  broadcast st c.room_id c.msg c.except

/-- Branch `/w`. -/
def cmdWhisper (st : Registry) (sock : Int) (rest : List Char) : Outcome :=
  let w := readWord rest
  let msg := getline w.2
  match findNick st.clients w.1 with
  | none => ⟨st, [], false, []⟩
  | some h =>
    let e := subscript st.clients sock
    ⟨{ st with clients := e.2 }, [(h, "(whisper) " ++ e.1.nick ++ ":" ++ msg ++ "\n")], false, []⟩

/-- Branch `/exit`. -/
def cmdExit (st : Registry) (sock : Int) : Option Outcome :=
  let e := subscript st.clients sock
  if 0 ≤ e.1.room_id then
    (eraseMember st.rooms e.1.room_id sock).map fun rooms1 =>
      ⟨⟨rooms1, setRoom st.clients sock (-1)⟩, [(sock, "Left room\n")], false, []⟩
  else some ⟨{ st with clients := e.2 }, [], false, []⟩

/-- The final `else` branch: an ordinary message for the sender's room. -/
def cmdChat (st : Registry) (sock : Int) (text : List Char) : Option Outcome :=
  let e := subscript st.clients sock
  let st1 : Registry := { st with clients := e.2 }
  if 0 ≤ e.1.room_id ∧ e.1.nick ≠ "" then
    (broadcast st1 e.1.room_id (e.1.nick ++ ": " ++ String.mk text) sock).map fun b =>
      ⟨b.1, b.2, false, []⟩
  else some ⟨st1, [], false, []⟩

/-- One step of the receive loop of `handleClient` for the `len > 0` bytes
`buf` returned by `recv`: the whole iteration for every branch but a successful
`/join`, whose step ends with its guarded block and whose two broadcasts are
the `calls` of the outcome. -/
def handleUnit (st : Registry) (sock : Int) (buf : String) : Option Outcome :=
  let text := cstr buf.data
  let w := readWord text
  let cmd := w.1
  if cmd = "/nick" then some (cmdNick st sock w.2)
  else if cmd = "/list" then some (cmdList st sock)
  else if cmd = "/create" then some (cmdCreate st sock w.2)
  else if cmd = "/join" then cmdJoin st sock w.2
  else if cmd = "/w" then some (cmdWhisper st sock w.2)
  else if cmd = "/exit" then cmdExit st sock
  else if cmd = "/quit" then some ⟨st, [], true, []⟩
  else cmdChat st sock text

/-! ## Session handler and listener -/

/-- The cleanup block at the end of `handleClient`. -/
def teardown (st : Registry) (sock : Int) : Option Registry :=
  let e := subscript st.clients sock
  (if 0 ≤ e.1.room_id then eraseMember st.rooms e.1.room_id sock else some st.rooms).map
    fun rooms1 => ⟨rooms1, e.2.erase sock⟩

/-- One iteration of the accept loop of `main` for the descriptor `cs` returned
by `accept`: `clients.emplace(cs, Client(cs, "", -1))`, which leaves an existing
entry alone; then the prompt that the new session thread sends first. -/
def acceptClient (st : Registry) (cs : Int) : Registry × List Send :=
  if cs < 0 then (st, [])
  else
    ({ st with clients := if cs ∈ st.clients then st.clients
                          else st.clients.insert cs ⟨cs, "", -1⟩ },
      [(cs, "Enter /nick <name> to set nickname\n")])

/-- The registries the server can be in: start empty, then accepts, received
units of registered sessions, and teardowns of registered sessions. -/
inductive Reachable : Registry → Prop
  | init : Reachable Registry.empty
  | accept (st : Registry) (cs : Int) : Reachable st → Reachable (acceptClient st cs).1
  | unit (st : Registry) (sock : Int) (buf : String) (out : Outcome) :
      Reachable st → sock ∈ st.clients → handleUnit st sock buf = some out →
      Reachable out.state
  | close (st st1 : Registry) (sock : Int) :
      Reachable st → sock ∈ st.clients → teardown st sock = some st1 → Reachable st1

/-! ## Steps, invariants and sample registries -/

/-- The registry mutations of one loop iteration of the session of `sock`. -/
inductive Mutation (st : Registry) (sock : Int) : Registry → Prop
  | same : Mutation st sock st
  | nick (name : String) :
      nickExists st.clients name = false → Mutation st sock (setNick st sock name)
  | create (rname : String) :
      (st.rooms.length : Int) < MAX_ROOMS →
      Mutation st sock { st with rooms := st.rooms ++ [⟨rname, ∅⟩] }
  | join (id : Int) (target : Room) (st1 : Registry) :
      roomAt st.rooms id = some target → target.clients.card < MAX_CLIENTS_PER_ROOM →
      joinState st sock id = some st1 → Mutation st sock st1
  | exit (c : Client) (rooms1 : List Room) :
      st.clients.lookup sock = some c → 0 ≤ c.room_id →
      eraseMember st.rooms c.room_id sock = some rooms1 →
      Mutation st sock ⟨rooms1, setRoom st.clients sock (-1)⟩

/-- No two clients with distinct handles carry the same set nickname. -/
def NickUnique (st : Registry) : Prop :=
  ∀ (h1 h2 : Int) (c1 c2 : Client),
    st.clients.lookup h1 = some c1 → st.clients.lookup h2 = some c2 →
    h1 ≠ h2 → c1.nick ≠ "" → c1.nick ≠ c2.nick

/-- The room field of every client and the membership sets agree. -/
structure Membership (st : Registry) : Prop where
  agree : ∀ (h : Int) (c : Client), st.clients.lookup h = some c →
    ∀ (r : Nat) (room : Room), st.rooms[r]? = some room →
      (h ∈ room.clients ↔ c.room_id = (r : Int))
  range : ∀ (h : Int) (c : Client), st.clients.lookup h = some c →
    c.room_id = -1 ∨ (0 ≤ c.room_id ∧ c.room_id < (st.rooms.length : Int))
  registered : ∀ (r : Nat) (room : Room), st.rooms[r]? = some room →
    ∀ h ∈ room.clients, h ∈ st.clients

/-- Every membership set has at most `MAX_CLIENTS_PER_ROOM` handles. -/
def Capacity (st : Registry) : Prop :=
  ∀ (r : Nat) (room : Room), st.rooms[r]? = some room →
    room.clients.card ≤ MAX_CLIENTS_PER_ROOM

/-- The command words of the dispatcher. -/
def commandWords : List String :=
  ["/nick", "/list", "/create", "/join", "/w", "/exit", "/quit"]

/-- Two named clients in room 0, one unnamed client in no room, a second empty
room. -/
def demo : Registry :=
  ⟨[⟨"lobby", {4, 5}⟩, ⟨"den", ∅⟩],
   Finmap.insert 4 ⟨4, "alice", 0⟩ (Finmap.insert 5 ⟨5, "bob", 0⟩
     (Finmap.singleton 6 ⟨6, "", -1⟩))⟩

/-- The registry after three accepts, before any unit. -/
def demoStart : Registry :=
  ⟨[], Finmap.insert 4 ⟨4, "", -1⟩ (Finmap.insert 5 ⟨5, "", -1⟩
     (Finmap.singleton 6 ⟨6, "", -1⟩))⟩

/-- A registry whose room 0 holds 40 members: handles 1 to 40. -/
def fullRoom : Registry :=
  ⟨[⟨"lobby", Finset.Icc 1 40⟩], Finmap.singleton 50 ⟨50, "alice", -1⟩⟩

/-- A registry with ten rooms, all empty. -/
def tenRooms : Registry :=
  ⟨List.replicate 10 ⟨"r", ∅⟩, Finmap.singleton 4 ⟨4, "", -1⟩⟩

/-- One registered client, already named `alice`; no room. -/
def soloAlice : Registry :=
  ⟨[], Finmap.singleton 4 ⟨4, "alice", -1⟩⟩

/-- The registries that can follow `st`: `st` itself, then any number of steps
of any sessions (accepts, units of registered sessions, teardowns). A call left
behind by a step that ended in `st` runs on one of these. -/
inductive Later (st : Registry) : Registry → Prop
  | here : Later st st
  | accept (st1 : Registry) (cs : Int) : Later st st1 → Later st (acceptClient st1 cs).1
  | unit (st1 : Registry) (sock : Int) (buf : String) (out : Outcome) :
      Later st st1 → sock ∈ st1.clients → handleUnit st1 sock buf = some out →
      Later st out.state
  | close (st1 st2 : Registry) (sock : Int) :
      Later st st1 → sock ∈ st1.clients → teardown st1 sock = some st2 → Later st st2

/-- Three clients in room 0: `alice` (4), `bob` (5) and the unnamed socket 6. -/
def demoCrowd : Registry :=
  ⟨[⟨"lobby", {4, 5, 6}⟩, ⟨"den", ∅⟩],
   Finmap.insert 4 ⟨4, "alice", 0⟩ (Finmap.insert 5 ⟨5, "bob", 0⟩
     (Finmap.singleton 6 ⟨6, "", 0⟩))⟩

/-- The registry `demoCrowd` after the guarded block of `/join 1` of socket 4. -/
def crowdAfterAlice : Registry :=
  ⟨[⟨"lobby", {5, 6}⟩, ⟨"den", {4}⟩],
   Finmap.insert 4 ⟨4, "alice", 1⟩ (Finmap.insert 5 ⟨5, "bob", 0⟩
     (Finmap.singleton 6 ⟨6, "", 0⟩))⟩

/-- The registry `crowdAfterAlice` after the guarded block of `/join 1` of
socket 6. -/
def crowdAfterBoth : Registry :=
  ⟨[⟨"lobby", {5}⟩, ⟨"den", {4, 6}⟩],
   Finmap.insert 4 ⟨4, "alice", 1⟩ (Finmap.insert 5 ⟨5, "bob", 0⟩
     (Finmap.singleton 6 ⟨6, "", 1⟩))⟩

/-- The sends of the second half of `broadcast` for the snapshot `s`: `msg` to
each handle of `s` other than `except`, in ascending order. -/
def fanout (s : Finset Int) (msg : String) (except : Int) : List Send :=
  ((sortedHandles s).filter (fun x => x != except)).map (fun x => (x, msg))

/-- The membership set of `rooms[i]`; empty when the list has no index `i`. -/
def membersOf (rooms : List Room) (i : Int) : Finset Int :=
  match roomAt rooms i with
  | some r => r.clients
  | none => ∅

/-- Spec wording of one line of the room listing:
`<index>. <name> (<occupancy>/<capacity>)\n` with capacity 40. -/
def roomLineBySpec (i : Nat) (r : Room) : String :=
  toString i ++ ". " ++ r.name ++ " (" ++ toString r.clients.card ++ "/40)\n"

/-- Spec wording of the `/list` reply: the header `Rooms:\n`, then one line
for each index from 0 to `rooms.size() - 1`, in order. -/
def listingBySpec (rooms : List Room) : String :=
  "Rooms:\n" ++
    String.join (List.ofFn (fun i : Fin rooms.length => roomLineBySpec i.val rooms[i.val]))

/-! ## The mutex along one loop iteration -/

/-- What a thread does that matters to the mutex `mtx`: taking it
(`std::lock_guard` constructed), releasing it (end of the guard's scope), one
statement that reads or writes `rooms` or `clients`, and one `send`. -/
inductive Event where
  | lock : Event
  | unlock : Event
  | touch : Event
  | send (dest : Int) (msg : String) : Event
deriving DecidableEq

/-- The `send` events of a list of sends, in order. -/
def sendEvents (sends : List Send) : List Event :=
  sends.map (fun s => Event.send s.1 s.2)

/-- A block that constructs the `lock_guard`, works on the registry, performs
`sends` and only then leaves the guard's scope. -/
def lockedBlock (sends : List Send) : List Event :=
  Event.lock :: Event.touch :: (sendEvents sends ++ [Event.unlock])

/-- The events of `broadcast(room_id, msg, except)`: the snapshot is taken in
an inner block that holds the guard, the sends follow after that block. -/
def broadcastTrace (st : Registry) (room_id : Int) (msg : String) (except : Int) :
    Option (List Event) :=
  (broadcast st room_id msg except).map fun b =>
    Event.lock :: Event.touch :: Event.unlock :: sendEvents b.2

/-- The events of branch `/join` as far as the end of its guarded block: the
usage line is sent before the block, the other replies inside it. Each of the
calls that follow has the events of `broadcastTrace`, on the registry of its
moment. -/
def joinTrace (st : Registry) (sock : Int) (rest : List Char) : Option (List Event) :=
  match readInt rest with
  | none => some [Event.send sock "Usage: /join <room_id>\n"]
  | some id =>
    if id < 0 ∨ (st.rooms.length : Int) ≤ id then
      some (lockedBlock [(sock, "No such room\n")])
    else
      (roomAt st.rooms id).bind fun target =>
      if MAX_CLIENTS_PER_ROOM ≤ target.clients.card then
        some (lockedBlock [(sock, "Room full\n")])
      else
        (joinState st sock id).map fun _ => lockedBlock [(sock, "Joined room\n")]

/-- The events of the final `else` branch: `clients[sock]` is evaluated up to
three times with no guard in scope, then `broadcast` is called. -/
def chatTrace (st : Registry) (sock : Int) (text : List Char) : Option (List Event) :=
  let e := subscript st.clients sock
  let st1 : Registry := { st with clients := e.2 }
  if 0 ≤ e.1.room_id then
    if e.1.nick ≠ "" then
      (broadcastTrace st1 e.1.room_id (e.1.nick ++ ": " ++ String.mk text) sock).map fun t =>
        Event.touch :: Event.touch :: Event.touch :: t
    else some [Event.touch, Event.touch]
  else some [Event.touch]

/-- The events of one step of the receive loop, branch by branch as in
`handleUnit`. -/
def unitTrace (st : Registry) (sock : Int) (buf : String) : Option (List Event) :=
  let text := cstr buf.data
  let w := readWord text
  let cmd := w.1
  if cmd = "/nick" then
    some (if (readWord w.2).1 = "" then [Event.send sock "Invalid nickname\n"]
          else lockedBlock (cmdNick st sock w.2).sends)
  else if cmd = "/list" then some (lockedBlock (cmdList st sock).sends)
  else if cmd = "/create" then some (lockedBlock (cmdCreate st sock w.2).sends)
  else if cmd = "/join" then joinTrace st sock w.2
  else if cmd = "/w" then some (lockedBlock (cmdWhisper st sock w.2).sends)
  else if cmd = "/exit" then (cmdExit st sock).map fun out => lockedBlock out.sends
  else if cmd = "/quit" then some []
  else chatTrace st sock text

/-- All the sends of a run of events, in order. -/
def sendsOf : List Event → List Send
  | [] => []
  | Event.send h m :: es => (h, m) :: sendsOf es
  | _ :: es => sendsOf es

/-- The sends performed while `mtx` is held; `held` tells whether it is held
when the run starts. -/
def heldSends : Bool → List Event → List Send
  | _, [] => []
  | _, Event.lock :: es => heldSends true es
  | _, Event.unlock :: es => heldSends false es
  | held, Event.touch :: es => heldSends held es
  | held, Event.send h m :: es =>
    if held then (h, m) :: heldSends held es else heldSends held es

/-- The number of registry accesses made while `mtx` is not held. -/
def unguardedTouches : Bool → List Event → Nat
  | _, [] => 0
  | _, Event.lock :: es => unguardedTouches true es
  | _, Event.unlock :: es => unguardedTouches false es
  | held, Event.touch :: es =>
    if held then unguardedTouches held es else unguardedTouches held es + 1
  | held, Event.send _ _ :: es => unguardedTouches held es

/-! ## Container lemmas -/

theorem sortedHandles_coe (s : Finset Int) : (sortedHandles s : Multiset Int) = s.val := by
  unfold sortedHandles
  generalize s.val = m
  induction m using Quot.inductionOn with
  | h l => exact Quot.sound (List.perm_insertionSort _ l)

theorem mem_sortedHandles (s : Finset Int) (a : Int) : a ∈ sortedHandles s ↔ a ∈ s := by
  rw [← Finset.mem_val, ← sortedHandles_coe, Multiset.mem_coe]

theorem nodup_sortedHandles (s : Finset Int) : (sortedHandles s).Nodup := by
  rw [← Multiset.coe_nodup, sortedHandles_coe]
  exact s.nodup

theorem mem_entries (m : ClientMap) (k : Int) (c : Client) :
    (k, c) ∈ entries m ↔ m.lookup k = some c := by
  unfold entries
  rw [List.mem_filterMap]
  constructor
  · rintro ⟨a, _, ha⟩
    cases hl : m.lookup a with
    | none => rw [hl] at ha; simp at ha
    | some c1 =>
      rw [hl] at ha
      simp only [Option.map_some', Option.some.injEq, Prod.mk.injEq] at ha
      obtain ⟨rfl, rfl⟩ := ha
      exact hl
  · intro h
    refine ⟨k, ?_, by rw [h]; rfl⟩
    rw [mem_sortedHandles, Finmap.mem_keys, Finmap.mem_iff]
    exact ⟨c, h⟩

theorem nickExists_iff (m : ClientMap) (name : String) :
    nickExists m name = true ↔ ∃ k c, m.lookup k = some c ∧ c.nick = name := by
  unfold nickExists
  rw [List.any_eq_true]
  constructor
  · rintro ⟨⟨k, c⟩, hmem, hc⟩
    exact ⟨k, c, (mem_entries m k c).1 hmem, by simpa using hc⟩
  · rintro ⟨k, c, hl, hc⟩
    exact ⟨(k, c), (mem_entries m k c).2 hl, by simpa using hc⟩

theorem subscript_of_lookup {m : ClientMap} {sock : Int} {c : Client}
    (h : m.lookup sock = some c) : subscript m sock = (c, m) := by
  unfold subscript
  rw [h]

theorem lookup_setRoom {m : ClientMap} {sock : Int} {c : Client} (id : Int)
    (h : m.lookup sock = some c) (k : Int) :
    (setRoom m sock id).lookup k
      = if k = sock then some { c with room_id := id } else m.lookup k := by
  unfold setRoom
  rw [subscript_of_lookup h]
  by_cases hk : k = sock
  · subst hk
    simp [Finmap.lookup_insert]
  · simp [hk, Finmap.lookup_insert_of_ne]

theorem lookup_setNick {st : Registry} {sock : Int} {c : Client} (name : String)
    (h : st.clients.lookup sock = some c) (k : Int) :
    (setNick st sock name).clients.lookup k
      = if k = sock then some { c with nick := name } else st.clients.lookup k := by
  unfold setNick
  rw [subscript_of_lookup h]
  by_cases hk : k = sock
  · subst hk
    simp [Finmap.lookup_insert]
  · simp [hk, Finmap.lookup_insert_of_ne]

theorem roomAt_eq_some {rooms : List Room} {i : Int} {r : Room} (h : roomAt rooms i = some r) :
    0 ≤ i ∧ rooms[i.toNat]? = some r := by
  unfold roomAt at h
  split at h
  · exact ⟨by assumption, h⟩
  · cases h

theorem roomAt_of_lt {rooms : List Room} {i : Int} (h0 : 0 ≤ i) (h1 : i < rooms.length) :
    ∃ r, roomAt rooms i = some r := by
  have hlt : i.toNat < rooms.length := by omega
  refine ⟨rooms[i.toNat], ?_⟩
  unfold roomAt
  rw [if_pos h0]
  exact List.getElem?_eq_getElem hlt

/-- What `rooms[i].clients.erase(sock)` does to each room. -/
theorem eraseMember_spec {rooms rooms1 : List Room} {i sock : Int}
    (h : eraseMember rooms i sock = some rooms1) :
    0 ≤ i ∧ i < rooms.length ∧ rooms1.length = rooms.length ∧
    ∀ (r : Nat) (room1 : Room), rooms1[r]? = some room1 →
      ∃ room0, rooms[r]? = some room0 ∧ room1.name = room0.name ∧
        room1.clients = if (r : Int) = i then room0.clients.erase sock else room0.clients := by
  unfold eraseMember at h
  cases hr : roomAt rooms i with
  | none => rw [hr] at h; cases h
  | some r0 =>
    rw [hr] at h
    simp only [Option.some.injEq] at h
    obtain ⟨h0, hget⟩ := roomAt_eq_some hr
    have hlt : i.toNat < rooms.length := by
      rw [List.getElem?_eq_some_iff] at hget
      exact hget.1
    subst h
    refine ⟨h0, by omega, by simp, ?_⟩
    intro r room1 hr1
    by_cases hri : r = i.toNat
    · subst hri
      rw [List.getElem?_set_self hlt] at hr1
      simp only [Option.some.injEq] at hr1
      subst hr1
      refine ⟨r0, hget, rfl, ?_⟩
      rw [if_pos (by omega)]
    · rw [List.getElem?_set_ne (Ne.symm hri)] at hr1
      refine ⟨room1, hr1, rfl, ?_⟩
      rw [if_neg (by omega)]

/-- What `rooms[i].clients.insert(sock)` does to each room. -/
theorem insertMember_spec {rooms rooms1 : List Room} {i sock : Int}
    (h : insertMember rooms i sock = some rooms1) :
    0 ≤ i ∧ i < rooms.length ∧ rooms1.length = rooms.length ∧
    ∀ (r : Nat) (room1 : Room), rooms1[r]? = some room1 →
      ∃ room0, rooms[r]? = some room0 ∧ room1.name = room0.name ∧
        room1.clients = if (r : Int) = i then insert sock room0.clients else room0.clients := by
  unfold insertMember at h
  cases hr : roomAt rooms i with
  | none => rw [hr] at h; cases h
  | some r0 =>
    rw [hr] at h
    simp only [Option.some.injEq] at h
    obtain ⟨h0, hget⟩ := roomAt_eq_some hr
    have hlt : i.toNat < rooms.length := by
      rw [List.getElem?_eq_some_iff] at hget
      exact hget.1
    subst h
    refine ⟨h0, by omega, by simp, ?_⟩
    intro r room1 hr1
    by_cases hri : r = i.toNat
    · subst hri
      rw [List.getElem?_set_self hlt] at hr1
      simp only [Option.some.injEq] at hr1
      subst hr1
      refine ⟨r0, hget, rfl, ?_⟩
      rw [if_pos (by omega)]
    · rw [List.getElem?_set_ne (Ne.symm hri)] at hr1
      refine ⟨room1, hr1, rfl, ?_⟩
      rw [if_neg (by omega)]

theorem eraseMember_of_lt (rooms : List Room) {i : Int} (sock : Int)
    (h0 : 0 ≤ i) (h1 : i < rooms.length) : ∃ rooms1, eraseMember rooms i sock = some rooms1 := by
  obtain ⟨r, hr⟩ := roomAt_of_lt h0 h1
  unfold eraseMember
  rw [hr]
  exact ⟨_, rfl⟩

theorem insertMember_of_lt (rooms : List Room) {i : Int} (sock : Int)
    (h0 : 0 ≤ i) (h1 : i < rooms.length) : ∃ rooms1, insertMember rooms i sock = some rooms1 := by
  obtain ⟨r, hr⟩ := roomAt_of_lt h0 h1
  unfold insertMember
  rw [hr]
  exact ⟨_, rfl⟩

theorem broadcast_state {st : Registry} {room_id except : Int} {msg : String}
    {b : Registry × List Send} (h : broadcast st room_id msg except = some b) : b.1 = st := by
  unfold broadcast at h
  split at h
  · cases h
  · simp only [Option.some.injEq] at h
    rw [← h]

/-! ## What one loop iteration can do to the registry -/

theorem cmdJoin_mutation {st : Registry} {sock : Int} {rest : List Char} {out : Outcome}
    (h : cmdJoin st sock rest = some out) : Mutation st sock out.state := by
  unfold cmdJoin at h
  split at h
  · cases h; exact Mutation.same
  · rename_i id _
    split at h
    · cases h; exact Mutation.same
    · cases ht : roomAt st.rooms id with
      | none => rw [ht] at h; cases h
      | some target =>
        rw [ht] at h
        simp only [Option.some_bind] at h
        split at h
        · cases h; exact Mutation.same
        · rename_i hfull
          rw [Option.map_eq_some'] at h
          obtain ⟨st1, hj, rfl⟩ := h
          exact Mutation.join id target st1 ht (by omega) hj

theorem handleUnit_mutation {st : Registry} {sock : Int} {buf : String} {out : Outcome}
    (hreg : sock ∈ st.clients) (h : handleUnit st sock buf = some out) :
    Mutation st sock out.state := by
  obtain ⟨c, hc⟩ := Finmap.mem_iff.1 hreg
  unfold handleUnit at h
  simp only at h
  split at h
  · simp only [Option.some.injEq] at h
    subst h
    unfold cmdNick
    simp only
    split
    · exact Mutation.same
    · split
      · exact Mutation.same
      · rename_i hne
        exact Mutation.nick _ (by simpa using hne)
  split at h
  · simp only [Option.some.injEq] at h
    subst h
    exact Mutation.same
  split at h
  · simp only [Option.some.injEq] at h
    subst h
    unfold cmdCreate
    simp only
    split
    · exact Mutation.same
    · rename_i hlt
      exact Mutation.create _ (by omega)
  split at h
  · exact cmdJoin_mutation h
  split at h
  · simp only [Option.some.injEq] at h
    subst h
    unfold cmdWhisper
    simp only
    split
    · exact Mutation.same
    · rw [subscript_of_lookup hc]
      exact Mutation.same
  split at h
  · unfold cmdExit at h
    rw [subscript_of_lookup hc] at h
    simp only at h
    split at h
    · rename_i hge
      rw [Option.map_eq_some'] at h
      obtain ⟨rooms1, hr, h⟩ := h
      subst h
      exact Mutation.exit c rooms1 hc hge hr
    · cases h
      exact Mutation.same
  split at h
  · cases h
    exact Mutation.same
  · unfold cmdChat at h
    rw [subscript_of_lookup hc] at h
    simp only at h
    split at h
    · rw [Option.map_eq_some'] at h
      obtain ⟨b, hb, h⟩ := h
      subst h
      simp only
      rw [broadcast_state hb]
      exact Mutation.same
    · cases h
      exact Mutation.same

/-! ## Invariants of the registry -/

theorem joinState_unfold {st st1 : Registry} {sock id : Int} {c : Client}
    (hc : st.clients.lookup sock = some c) (h : joinState st sock id = some st1) :
    ∃ rooms1 rooms2,
      (if 0 ≤ c.room_id then eraseMember st.rooms c.room_id sock else some st.rooms)
        = some rooms1 ∧
      insertMember rooms1 id sock = some rooms2 ∧
      st1 = ⟨rooms2, setRoom st.clients sock id⟩ := by
  unfold joinState at h
  rw [subscript_of_lookup hc] at h
  simp only at h
  rw [Option.bind_eq_some] at h
  obtain ⟨rooms1, h1, h⟩ := h
  rw [Option.map_eq_some'] at h
  obtain ⟨rooms2, h2, h⟩ := h
  exact ⟨rooms1, rooms2, h1, h2, h.symm⟩

/-- The optional `rooms[prev].clients.erase(sock)` room by room. -/
theorem eraseIf_spec {rooms rooms1 : List Room} {prev sock : Int}
    (h : (if 0 ≤ prev then eraseMember rooms prev sock else some rooms) = some rooms1) :
    rooms1.length = rooms.length ∧
    ∀ (r : Nat) (room1 : Room), rooms1[r]? = some room1 →
      ∃ room0, rooms[r]? = some room0 ∧ room1.name = room0.name ∧
        room1.clients = if (r : Int) = prev then room0.clients.erase sock else room0.clients := by
  split at h
  · obtain ⟨_, _, hlen, hspec⟩ := eraseMember_spec h
    exact ⟨hlen, hspec⟩
  · rename_i hneg
    simp only [Option.some.injEq] at h
    subst h
    refine ⟨rfl, ?_⟩
    intro r room1 hr
    refine ⟨room1, hr, rfl, ?_⟩
    rw [if_neg (by omega)]

/-- The rooms after a successful `/join`, room by room. -/
theorem joinState_spec {st st1 : Registry} {sock id : Int} {c : Client}
    (hc : st.clients.lookup sock = some c) (h : joinState st sock id = some st1) :
    0 ≤ id ∧ id < (st.rooms.length : Int) ∧ st1.rooms.length = st.rooms.length ∧
    st1.clients = setRoom st.clients sock id ∧
    ∀ (r : Nat) (room1 : Room), st1.rooms[r]? = some room1 →
      ∃ room0, st.rooms[r]? = some room0 ∧ room1.name = room0.name ∧
        room1.clients =
          if (r : Int) = id then
            insert sock (if (r : Int) = c.room_id then room0.clients.erase sock
                         else room0.clients)
          else if (r : Int) = c.room_id then room0.clients.erase sock
          else room0.clients := by
  obtain ⟨rooms1, rooms2, h1, h2, rfl⟩ := joinState_unfold hc h
  obtain ⟨hlen1, hs1⟩ := eraseIf_spec h1
  obtain ⟨h0, hlt, hlen2, hs2⟩ := insertMember_spec h2
  refine ⟨h0, by omega, by simp only; omega, rfl, ?_⟩
  intro r room2 hr2
  obtain ⟨room1, hr1, hn1, hcl1⟩ := hs2 r room2 hr2
  obtain ⟨room0, hr0, hn0, hcl0⟩ := hs1 r room1 hr1
  refine ⟨room0, hr0, hn1.trans hn0, ?_⟩
  rw [hcl1, hcl0]

theorem mem_of_lookup {m : ClientMap} {h : Int} {c : Client} (hl : m.lookup h = some c) :
    h ∈ m :=
  Finmap.mem_iff.2 ⟨c, hl⟩

theorem mem_setRoom {m : ClientMap} {sock : Int} {c : Client} (id : Int)
    (hc : m.lookup sock = some c) {h : Int} (hm : h ∈ m) : h ∈ setRoom m sock id := by
  obtain ⟨c1, hc1⟩ := Finmap.mem_iff.1 hm
  apply Finmap.mem_iff.2
  rw [lookup_setRoom id hc]
  by_cases hk : h = sock
  · exact ⟨_, by rw [if_pos hk]⟩
  · exact ⟨c1, by rw [if_neg hk]; exact hc1⟩

/-- A step that keeps every remaining client's nickname keeps nicknames unique. -/
theorem nickUnique_of_nick_kept {st st1 : Registry} (hinv : NickUnique st)
    (hk : ∀ (h : Int) (c1 : Client), st1.clients.lookup h = some c1 →
      ∃ c0, st.clients.lookup h = some c0 ∧ c0.nick = c1.nick) : NickUnique st1 := by
  intro h1 h2 c1 c2 hl1 hl2 hne hset
  obtain ⟨d1, hd1, e1⟩ := hk h1 c1 hl1
  obtain ⟨d2, hd2, e2⟩ := hk h2 c2 hl2
  rw [← e1, ← e2]
  exact hinv h1 h2 d1 d2 hd1 hd2 hne (by rw [e1]; exact hset)

theorem nick_kept_setRoom {m : ClientMap} {sock : Int} {c : Client} (id : Int)
    (hc : m.lookup sock = some c) (h : Int) (c1 : Client)
    (hl : (setRoom m sock id).lookup h = some c1) :
    ∃ c0, m.lookup h = some c0 ∧ c0.nick = c1.nick := by
  rw [lookup_setRoom id hc] at hl
  split at hl
  · rename_i hk
    subst hk
    simp only [Option.some.injEq] at hl
    subst hl
    exact ⟨c, hc, rfl⟩
  · exact ⟨c1, hl, rfl⟩

theorem nickUnique_mutation {st st1 : Registry} {sock : Int} (hreg : sock ∈ st.clients)
    (hm : Mutation st sock st1) (hinv : NickUnique st) : NickUnique st1 := by
  obtain ⟨c, hc⟩ := Finmap.mem_iff.1 hreg
  cases hm with
  | same => exact hinv
  | nick name hfree =>
    have hnone : ∀ (k : Int) (d : Client), st.clients.lookup k = some d → d.nick ≠ name := by
      intro k d hd he
      have := (nickExists_iff st.clients name).2 ⟨k, d, hd, he⟩
      rw [hfree] at this
      cases this
    intro h1 h2 c1 c2 hl1 hl2 hne hset
    rw [lookup_setNick name hc] at hl1 hl2
    by_cases e1 : h1 = sock
    · have e2 : ¬ h2 = sock := fun e => hne (e1.trans e.symm)
      rw [if_pos e1] at hl1
      rw [if_neg e2] at hl2
      simp only [Option.some.injEq] at hl1
      subst hl1
      exact fun e => hnone h2 c2 hl2 e.symm
    · rw [if_neg e1] at hl1
      by_cases e2 : h2 = sock
      · rw [if_pos e2] at hl2
        simp only [Option.some.injEq] at hl2
        subst hl2
        exact hnone h1 c1 hl1
      · rw [if_neg e2] at hl2
        exact hinv h1 h2 c1 c2 hl1 hl2 hne hset
  | create rname _ => exact hinv
  | join id target st1 _ _ hj =>
    obtain ⟨_, _, _, hcl, _⟩ := joinState_spec hc hj
    refine nickUnique_of_nick_kept hinv ?_
    rw [hcl]
    exact nick_kept_setRoom id hc
  | exit c1 rooms1 hc1 _ _ =>
    exact nickUnique_of_nick_kept hinv (nick_kept_setRoom (-1) hc1)

theorem nickUnique_accept {st : Registry} (cs : Int) (hinv : NickUnique st) :
    NickUnique (acceptClient st cs).1 := by
  unfold acceptClient
  split
  · exact hinv
  · simp only
    split
    · exact hinv
    · intro h1 h2 c1 c2 hl1 hl2 hne hset
      simp only at hl1 hl2
      by_cases e1 : h1 = cs
      · subst e1
        rw [Finmap.lookup_insert] at hl1
        simp only [Option.some.injEq] at hl1
        subst hl1
        exact absurd rfl hset
      · rw [Finmap.lookup_insert_of_ne _ e1] at hl1
        by_cases e2 : h2 = cs
        · subst e2
          rw [Finmap.lookup_insert] at hl2
          simp only [Option.some.injEq] at hl2
          subst hl2
          exact hset
        · rw [Finmap.lookup_insert_of_ne _ e2] at hl2
          exact hinv h1 h2 c1 c2 hl1 hl2 hne hset

theorem teardown_unfold {st st1 : Registry} {sock : Int} {c : Client}
    (hc : st.clients.lookup sock = some c) (h : teardown st sock = some st1) :
    ∃ rooms1,
      (if 0 ≤ c.room_id then eraseMember st.rooms c.room_id sock else some st.rooms)
        = some rooms1 ∧
      st1 = ⟨rooms1, st.clients.erase sock⟩ := by
  unfold teardown at h
  rw [subscript_of_lookup hc] at h
  simp only at h
  rw [Option.map_eq_some'] at h
  obtain ⟨rooms1, h1, h⟩ := h
  exact ⟨rooms1, h1, h.symm⟩

theorem lookup_erase_some {m : ClientMap} {sock h : Int} {c : Client}
    (hl : (m.erase sock).lookup h = some c) : h ≠ sock ∧ m.lookup h = some c := by
  by_cases e : h = sock
  · subst e
    rw [Finmap.lookup_erase] at hl
    cases hl
  · rw [Finmap.lookup_erase_ne e] at hl
    exact ⟨e, hl⟩

theorem nickUnique_teardown {st st1 : Registry} {sock : Int} (hreg : sock ∈ st.clients)
    (h : teardown st sock = some st1) (hinv : NickUnique st) : NickUnique st1 := by
  obtain ⟨c, hc⟩ := Finmap.mem_iff.1 hreg
  obtain ⟨rooms1, _, rfl⟩ := teardown_unfold hc h
  refine nickUnique_of_nick_kept hinv ?_
  intro k c1 hl
  exact ⟨c1, (lookup_erase_some hl).2, rfl⟩

theorem nickUnique_reachable {st : Registry} (h : Reachable st) : NickUnique st := by
  induction h with
  | init =>
    intro h1 h2 c1 c2 hl1
    simp [Registry.empty] at hl1
  | accept st cs _ ih => exact nickUnique_accept cs ih
  | unit st sock buf out _ hreg hu ih => exact nickUnique_mutation hreg (handleUnit_mutation hreg hu) ih
  | close st st1 sock _ hreg ht ih => exact nickUnique_teardown hreg ht ih

theorem getElem?_append_singleton {rooms : List Room} {x room : Room} {r : Nat}
    (h : (rooms ++ [x])[r]? = some room) :
    rooms[r]? = some room ∨ (r = rooms.length ∧ room = x) := by
  by_cases hr : r < rooms.length
  · rw [List.getElem?_append_left hr] at h
    exact Or.inl h
  · rw [List.getElem?_append_right (by omega)] at h
    right
    by_cases h0 : r - rooms.length = 0
    · rw [h0] at h
      simp only [List.getElem?_cons_zero, Option.some.injEq] at h
      exact ⟨by omega, h.symm⟩
    · obtain ⟨k, hk⟩ := Nat.exists_eq_succ_of_ne_zero h0
      rw [hk] at h
      simp at h

theorem membership_mutation {st st1 : Registry} {sock : Int} (hreg : sock ∈ st.clients)
    (hm : Mutation st sock st1) (hinv : Membership st) : Membership st1 := by
  obtain ⟨c, hc⟩ := Finmap.mem_iff.1 hreg
  cases hm with
  | same => exact hinv
  | nick name hfree =>
    have hk : ∀ (h : Int) (c1 : Client), (setNick st sock name).clients.lookup h = some c1 →
        ∃ c0, st.clients.lookup h = some c0 ∧ c0.room_id = c1.room_id := by
      intro h c1 hl
      rw [lookup_setNick name hc] at hl
      split at hl
      · rename_i e
        subst e
        simp only [Option.some.injEq] at hl
        subst hl
        exact ⟨c, hc, rfl⟩
      · exact ⟨c1, hl, rfl⟩
    have hrooms : (setNick st sock name).rooms = st.rooms := rfl
    refine ⟨?_, ?_, ?_⟩
    · intro h c1 hl r room hr
      obtain ⟨c0, hl0, e⟩ := hk h c1 hl
      rw [← e]
      exact hinv.agree h c0 hl0 r room (hrooms ▸ hr)
    · intro h c1 hl
      obtain ⟨c0, hl0, e⟩ := hk h c1 hl
      rw [← e, hrooms]
      exact hinv.range h c0 hl0
    · intro r room hr h hmem
      obtain ⟨c0, hl0⟩ := Finmap.mem_iff.1 (hinv.registered r room (hrooms ▸ hr) h hmem)
      apply Finmap.mem_iff.2
      rw [lookup_setNick name hc]
      by_cases e : h = sock
      · exact ⟨_, by rw [if_pos e]⟩
      · exact ⟨c0, by rw [if_neg e]; exact hl0⟩
  | create rname _ =>
    refine ⟨?_, ?_, ?_⟩
    · intro h c1 hl r room hr
      rcases getElem?_append_singleton hr with h0 | ⟨hlen, rfl⟩
      · exact hinv.agree h c1 hl r room h0
      · have := hinv.range h c1 hl
        simp only [Finset.not_mem_empty, false_iff]
        omega
    · intro h c1 hl
      have := hinv.range h c1 hl
      simp only [List.length_append, List.length_singleton]
      omega
    · intro r room hr h hmem
      rcases getElem?_append_singleton hr with h0 | ⟨_, rfl⟩
      · exact hinv.registered r room h0 h hmem
      · simp at hmem
  | join id target st1 _ _ hj =>
    obtain ⟨h0, hlt, hlen, hcl, hspec⟩ := joinState_spec hc hj
    refine ⟨?_, ?_, ?_⟩
    · intro h c1 hl r room1 hr
      obtain ⟨room0, hr0, _, hcls⟩ := hspec r room1 hr
      rw [hcl, lookup_setRoom id hc] at hl
      by_cases e : h = sock
      · rw [if_pos e] at hl
        simp only [Option.some.injEq] at hl
        subst hl
        subst e
        have hold := hinv.agree h c hc r room0 hr0
        rw [hcls]
        simp only
        split_ifs with e1 e2 e2
        · simp [e1]
        · simp [e1]
        · simp only [Finset.mem_erase, ne_eq, not_true_eq_false, false_and, false_iff]
          omega
        · rw [hold]
          constructor
          · intro e3; exact absurd e3.symm e2
          · intro e3; exact absurd e3.symm e1
      · rw [if_neg e] at hl
        have hold := hinv.agree h c1 hl r room0 hr0
        rw [hcls, ← hold]
        split_ifs <;> simp [e]
    · intro h c1 hl
      rw [hcl, lookup_setRoom id hc] at hl
      rw [hlen]
      split at hl
      · simp only [Option.some.injEq] at hl
        subst hl
        exact Or.inr ⟨h0, hlt⟩
      · exact hinv.range h c1 hl
    · intro r room1 hr h hmem
      obtain ⟨room0, hr0, _, hcls⟩ := hspec r room1 hr
      rw [hcl]
      by_cases e : h = sock
      · subst e
        exact mem_setRoom id hc hreg
      · refine mem_setRoom id hc (hinv.registered r room0 hr0 h ?_)
        rw [hcls] at hmem
        split_ifs at hmem
        · rcases Finset.mem_insert.1 hmem with h1 | h1
          · exact absurd h1 e
          · exact Finset.mem_of_mem_erase h1
        · rcases Finset.mem_insert.1 hmem with h1 | h1
          · exact absurd h1 e
          · exact h1
        · exact Finset.mem_of_mem_erase hmem
        · exact hmem
  | exit c1 rooms1 hc1 hge he =>
    obtain ⟨_, _, hlen, hspec⟩ := eraseMember_spec he
    refine ⟨?_, ?_, ?_⟩
    · intro h c2 hl r room1 hr
      obtain ⟨room0, hr0, _, hcls⟩ := hspec r room1 hr
      simp only at hl
      rw [lookup_setRoom (-1) hc1] at hl
      by_cases e : h = sock
      · rw [if_pos e] at hl
        simp only [Option.some.injEq] at hl
        subst hl
        subst e
        have hold := hinv.agree h c1 hc1 r room0 hr0
        rw [hcls]
        have hneg : ¬ ((-1 : Int) = (r : Int)) := by omega
        split_ifs with e1
        · constructor
          · intro hm; exact absurd rfl (Finset.ne_of_mem_erase hm)
          · intro e3; exact absurd e3 hneg
        · constructor
          · intro hm; exact absurd (hold.1 hm).symm e1
          · intro e3; exact absurd e3 hneg
      · rw [if_neg e] at hl
        have hold := hinv.agree h c2 hl r room0 hr0
        rw [hcls, ← hold]
        split_ifs <;> simp [e]
    · intro h c2 hl
      simp only at hl
      rw [lookup_setRoom (-1) hc1] at hl
      simp only
      rw [hlen]
      split at hl
      · simp only [Option.some.injEq] at hl
        subst hl
        exact Or.inl rfl
      · exact hinv.range h c2 hl
    · intro r room1 hr h hmem
      obtain ⟨room0, hr0, _, hcls⟩ := hspec r room1 hr
      refine mem_setRoom (-1) hc1 (hinv.registered r room0 hr0 h ?_)
      rw [hcls] at hmem
      split_ifs at hmem
      · exact Finset.mem_of_mem_erase hmem
      · exact hmem

theorem membership_teardown {st st1 : Registry} {sock : Int} (hreg : sock ∈ st.clients)
    (h : teardown st sock = some st1) (hinv : Membership st) : Membership st1 := by
  obtain ⟨c, hc⟩ := Finmap.mem_iff.1 hreg
  obtain ⟨rooms1, he, rfl⟩ := teardown_unfold hc h
  obtain ⟨hlen, hspec⟩ := eraseIf_spec he
  refine ⟨?_, ?_, ?_⟩
  · intro h c1 hl r room1 hr
    obtain ⟨room0, hr0, _, hcls⟩ := hspec r room1 hr
    obtain ⟨e, hl0⟩ := lookup_erase_some hl
    have hold := hinv.agree h c1 hl0 r room0 hr0
    rw [hcls, ← hold]
    split_ifs <;> simp [e]
  · intro h c1 hl
    obtain ⟨_, hl0⟩ := lookup_erase_some hl
    simp only
    rw [hlen]
    exact hinv.range h c1 hl0
  · intro r room1 hr h hmem
    obtain ⟨room0, hr0, _, hcls⟩ := hspec r room1 hr
    simp only
    rw [Finmap.mem_erase]
    rw [hcls] at hmem
    have hold := hinv.agree sock c hc r room0 hr0
    split_ifs at hmem with e1
    · exact ⟨Finset.ne_of_mem_erase hmem, hinv.registered r room0 hr0 h (Finset.mem_of_mem_erase hmem)⟩
    · refine ⟨?_, hinv.registered r room0 hr0 h hmem⟩
      intro e
      subst e
      exact e1 (hold.1 hmem).symm

theorem membership_accept {st : Registry} (cs : Int) (hinv : Membership st) :
    Membership (acceptClient st cs).1 := by
  unfold acceptClient
  split
  · exact hinv
  · simp only
    split
    · exact hinv
    · rename_i hnew
      refine ⟨?_, ?_, ?_⟩
      · intro h c1 hl r room hr
        simp only at hl hr
        by_cases e : h = cs
        · subst e
          rw [Finmap.lookup_insert] at hl
          simp only [Option.some.injEq] at hl
          subst hl
          simp only
          constructor
          · intro hmem; exact absurd (hinv.registered r room hr h hmem) hnew
          · intro e3; omega
        · rw [Finmap.lookup_insert_of_ne _ e] at hl
          exact hinv.agree h c1 hl r room hr
      · intro h c1 hl
        simp only at hl
        by_cases e : h = cs
        · subst e
          rw [Finmap.lookup_insert] at hl
          simp only [Option.some.injEq] at hl
          subst hl
          exact Or.inl rfl
        · rw [Finmap.lookup_insert_of_ne _ e] at hl
          exact hinv.range h c1 hl
      · intro r room hr h hmem
        simp only
        rw [Finmap.mem_insert]
        exact Or.inr (hinv.registered r room hr h hmem)

theorem membership_reachable {st : Registry} (h : Reachable st) : Membership st := by
  induction h with
  | init =>
    refine ⟨?_, ?_, ?_⟩
    · intro h c hl
      simp [Registry.empty] at hl
    · intro h c hl
      simp [Registry.empty] at hl
    · intro r room hr
      simp [Registry.empty] at hr
  | accept st cs _ ih => exact membership_accept cs ih
  | unit st sock buf out _ hreg hu ih => exact membership_mutation hreg (handleUnit_mutation hreg hu) ih
  | close st st1 sock _ hreg ht ih => exact membership_teardown hreg ht ih

theorem capacity_mutation {st st1 : Registry} {sock : Int} (hreg : sock ∈ st.clients)
    (hm : Mutation st sock st1) (hinv : Capacity st) : Capacity st1 := by
  obtain ⟨c, hc⟩ := Finmap.mem_iff.1 hreg
  cases hm with
  | same => exact hinv
  | nick name _ => exact hinv
  | create rname _ =>
    intro r room hr
    rcases getElem?_append_singleton hr with h0 | ⟨_, rfl⟩
    · exact hinv r room h0
    · simp
  | join id target st1 ht hfull hj =>
    obtain ⟨h0, hlt, hlen, hcl, hspec⟩ := joinState_spec hc hj
    intro r room1 hr
    obtain ⟨room0, hr0, _, hcls⟩ := hspec r room1 hr
    have hold := hinv r room0 hr0
    rw [hcls]
    split_ifs with e1 e2 e2
    · have htarget : room0 = target := by
        have := (roomAt_eq_some ht).2
        have e : id.toNat = r := by omega
        rw [e, hr0] at this
        exact Option.some.inj this
      subst htarget
      have h1 := Finset.card_insert_le sock (room0.clients.erase sock)
      have h2 : (room0.clients.erase sock).card ≤ room0.clients.card := Finset.card_erase_le
      omega
    · have htarget : room0 = target := by
        have := (roomAt_eq_some ht).2
        have e : id.toNat = r := by omega
        rw [e, hr0] at this
        exact Option.some.inj this
      subst htarget
      have h1 := Finset.card_insert_le sock room0.clients
      omega
    · exact le_trans (Finset.card_erase_le) hold
    · exact hold
  | exit c1 rooms1 hc1 hge he =>
    obtain ⟨_, _, hlen, hspec⟩ := eraseMember_spec he
    intro r room1 hr
    obtain ⟨room0, hr0, _, hcls⟩ := hspec r room1 hr
    have hold := hinv r room0 hr0
    rw [hcls]
    split_ifs
    · exact le_trans (Finset.card_erase_le) hold
    · exact hold

theorem capacity_teardown {st st1 : Registry} {sock : Int} (hreg : sock ∈ st.clients)
    (h : teardown st sock = some st1) (hinv : Capacity st) : Capacity st1 := by
  obtain ⟨c, hc⟩ := Finmap.mem_iff.1 hreg
  obtain ⟨rooms1, he, rfl⟩ := teardown_unfold hc h
  obtain ⟨hlen, hspec⟩ := eraseIf_spec he
  intro r room1 hr
  obtain ⟨room0, hr0, _, hcls⟩ := hspec r room1 hr
  have hold := hinv r room0 hr0
  rw [hcls]
  split_ifs
  · exact le_trans (Finset.card_erase_le) hold
  · exact hold

theorem acceptClient_rooms (st : Registry) (cs : Int) :
    (acceptClient st cs).1.rooms = st.rooms := by
  unfold acceptClient
  split <;> rfl

theorem capacity_reachable {st : Registry} (h : Reachable st) : Capacity st := by
  induction h with
  | init =>
    intro r room hr
    simp [Registry.empty] at hr
  | accept st cs _ ih =>
    intro r room hr
    rw [acceptClient_rooms] at hr
    exact ih r room hr
  | unit st sock buf out _ hreg hu ih => exact capacity_mutation hreg (handleUnit_mutation hreg hu) ih
  | close st st1 sock _ hreg ht ih => exact capacity_teardown hreg ht ih

theorem roomCount_mutation {st st1 : Registry} {sock : Int} (hreg : sock ∈ st.clients)
    (hm : Mutation st sock st1) (hinv : (st.rooms.length : Int) ≤ MAX_ROOMS) :
    (st1.rooms.length : Int) ≤ MAX_ROOMS := by
  obtain ⟨c, hc⟩ := Finmap.mem_iff.1 hreg
  cases hm with
  | same => exact hinv
  | nick name _ => exact hinv
  | create rname hlt =>
    simp only [List.length_append, List.length_singleton]
    push_cast
    omega
  | join id target st1 ht hfull hj =>
    obtain ⟨_, _, hlen, _, _⟩ := joinState_spec hc hj
    rw [hlen]
    exact hinv
  | exit c1 rooms1 hc1 hge he =>
    obtain ⟨_, _, hlen, _⟩ := eraseMember_spec he
    simp only
    rw [hlen]
    exact hinv

theorem roomCount_teardown {st st1 : Registry} {sock : Int} (hreg : sock ∈ st.clients)
    (h : teardown st sock = some st1) (hinv : (st.rooms.length : Int) ≤ MAX_ROOMS) :
    (st1.rooms.length : Int) ≤ MAX_ROOMS := by
  obtain ⟨c, hc⟩ := Finmap.mem_iff.1 hreg
  obtain ⟨rooms1, he, rfl⟩ := teardown_unfold hc h
  obtain ⟨hlen, _⟩ := eraseIf_spec he
  simp only
  rw [hlen]
  exact hinv

/-! ## A concrete run -/

theorem demoStart_reachable : Reachable demoStart := by
  have h1 := Reachable.accept _ 6 Reachable.init
  have h2 := Reachable.accept _ 5 h1
  have h3 := Reachable.accept _ 4 h2
  have e : (acceptClient (acceptClient (acceptClient Registry.empty 6).1 5).1 4).1 = demoStart := by
    decide
  exact e ▸ h3

/-- The run `/nick alice`, `/nick bob`, `/create lobby`, `/create den`,
`/join 0`, `/join 0` leads from `demoStart` to `demo`. -/
theorem demo_reachable : Reachable demo := by
  have h1 := Reachable.unit demoStart 4 "/nick alice\n"
    ⟨⟨[], Finmap.insert 4 ⟨4, "alice", -1⟩ (Finmap.insert 5 ⟨5, "", -1⟩
      (Finmap.singleton 6 ⟨6, "", -1⟩))⟩, [(4, "Nickname set\n")], false, []⟩
    demoStart_reachable (by decide) (by decide)
  have h2 := Reachable.unit _ 5 "/nick bob\n"
    ⟨⟨[], Finmap.insert 4 ⟨4, "alice", -1⟩ (Finmap.insert 5 ⟨5, "bob", -1⟩
      (Finmap.singleton 6 ⟨6, "", -1⟩))⟩, [(5, "Nickname set\n")], false, []⟩
    h1 (by decide) (by decide)
  have h3 := Reachable.unit _ 4 "/create lobby\n"
    ⟨⟨[⟨"lobby", ∅⟩], Finmap.insert 4 ⟨4, "alice", -1⟩ (Finmap.insert 5 ⟨5, "bob", -1⟩
      (Finmap.singleton 6 ⟨6, "", -1⟩))⟩, [(4, "Room created\n")], false, []⟩
    h2 (by decide) (by decide)
  have h4 := Reachable.unit _ 4 "/create den\n"
    ⟨⟨[⟨"lobby", ∅⟩, ⟨"den", ∅⟩], Finmap.insert 4 ⟨4, "alice", -1⟩
      (Finmap.insert 5 ⟨5, "bob", -1⟩ (Finmap.singleton 6 ⟨6, "", -1⟩))⟩,
      [(4, "Room created\n")], false, []⟩
    h3 (by decide) (by decide)
  have h5 := Reachable.unit _ 4 "/join 0\n"
    ⟨⟨[⟨"lobby", {4}⟩, ⟨"den", ∅⟩], Finmap.insert 4 ⟨4, "alice", 0⟩
      (Finmap.insert 5 ⟨5, "bob", -1⟩ (Finmap.singleton 6 ⟨6, "", -1⟩))⟩,
      [(4, "Joined room\n")], false, [⟨0, "alice joined room 0\n", 4⟩]⟩
    h4 (by decide) (by decide)
  have h6 := Reachable.unit _ 5 "/join 0\n"
    ⟨demo, [(5, "Joined room\n")], false, [⟨0, "bob joined room 0\n", 5⟩]⟩
    h5 (by decide) (by decide)
  exact h6

/-! ## Registry invariants (C1 to C4) -/

/-- C1: nickname uniqueness is an invariant. In every registry reachable from
the empty one by accepts, received units and teardowns, two clients with
distinct handles never carry the same set (non-empty) nickname. -/
theorem nickname_unique_invariant (st : Registry) (hreach : Reachable st)
    (h1 h2 : Int) (c1 c2 : Client)
    (hl1 : st.clients.lookup h1 = some c1) (hl2 : st.clients.lookup h2 = some c2)
    (hne : h1 ≠ h2) (hset : c1.nick ≠ "") : c1.nick ≠ c2.nick :=
  nickUnique_reachable hreach h1 h2 c1 c2 hl1 hl2 hne hset

theorem nickname_unique_invariant_witness :
    Reachable demo ∧ demo.clients.lookup 4 = some ⟨4, "alice", 0⟩ ∧
    demo.clients.lookup 5 = some ⟨5, "bob", 0⟩ ∧ (4 : Int) ≠ 5 ∧
    (⟨4, "alice", 0⟩ : Client).nick ≠ "" ∧
    (⟨4, "alice", 0⟩ : Client).nick ≠ (⟨5, "bob", 0⟩ : Client).nick :=
  ⟨demo_reachable, by decide, by decide, by decide, by decide,
    nickname_unique_invariant demo demo_reachable 4 5 ⟨4, "alice", 0⟩ ⟨5, "bob", 0⟩
      (by decide) (by decide) (by decide) (by decide)⟩

/-- C2: single-room membership is an invariant. In every reachable registry,
for every registered client and every room index, the client's handle is in
that room's membership set exactly when the client's `room_id` is that index;
every `room_id` is -1 or a valid index into the room list; no handle is in two
rooms' membership sets; every handle in a membership set is registered. -/
theorem single_room_membership_invariant (st : Registry) (hreach : Reachable st) :
    (∀ (h : Int) (c : Client), st.clients.lookup h = some c →
      ∀ (r : Nat) (room : Room), st.rooms[r]? = some room →
        (h ∈ room.clients ↔ c.room_id = (r : Int))) ∧
    (∀ (h : Int) (c : Client), st.clients.lookup h = some c →
      c.room_id = -1 ∨ (0 ≤ c.room_id ∧ c.room_id < (st.rooms.length : Int))) ∧
    (∀ (h : Int) (r1 r2 : Nat) (room1 room2 : Room),
      st.rooms[r1]? = some room1 → st.rooms[r2]? = some room2 →
      h ∈ room1.clients → h ∈ room2.clients → r1 = r2) ∧
    (∀ (r : Nat) (room : Room), st.rooms[r]? = some room →
      ∀ h ∈ room.clients, h ∈ st.clients) := by
  have hinv := membership_reachable hreach
  refine ⟨hinv.agree, hinv.range, ?_, hinv.registered⟩
  intro h r1 r2 room1 room2 hr1 hr2 hm1 hm2
  obtain ⟨c, hc⟩ := Finmap.mem_iff.1 (hinv.registered r1 room1 hr1 h hm1)
  have e1 := (hinv.agree h c hc r1 room1 hr1).1 hm1
  have e2 := (hinv.agree h c hc r2 room2 hr2).1 hm2
  omega

theorem single_room_membership_invariant_witness :
    Reachable demo ∧
    ((4 : Int) ∈ (⟨"lobby", {4, 5}⟩ : Room).clients ↔ (⟨4, "alice", 0⟩ : Client).room_id = ((0 : Nat) : Int)) :=
  ⟨demo_reachable,
    (single_room_membership_invariant demo demo_reachable).1 4 ⟨4, "alice", 0⟩ (by decide)
      0 ⟨"lobby", {4, 5}⟩ (by decide)⟩

/-- C3: per-room capacity is an invariant. In every reachable registry every
room's membership set has at most `MAX_CLIENTS_PER_ROOM` (40) handles. -/
theorem room_capacity_invariant (st : Registry) (hreach : Reachable st)
    (room : Room) (hroom : room ∈ st.rooms) :
    room.clients.card ≤ MAX_CLIENTS_PER_ROOM ∧ MAX_CLIENTS_PER_ROOM = 40 := by
  obtain ⟨r, hr⟩ := List.mem_iff_getElem?.1 hroom
  exact ⟨capacity_reachable hreach r room hr, rfl⟩

theorem room_capacity_invariant_witness :
    Reachable demo ∧ (⟨"lobby", {4, 5}⟩ : Room) ∈ demo.rooms ∧
    (⟨"lobby", {4, 5}⟩ : Room).clients.card ≤ MAX_CLIENTS_PER_ROOM ∧
    MAX_CLIENTS_PER_ROOM = 40 :=
  ⟨demo_reachable, by decide,
    room_capacity_invariant demo demo_reachable ⟨"lobby", {4, 5}⟩ (by decide)⟩

/-- C4: the room count is an invariant. In every reachable registry the room
list has at most `MAX_ROOMS` (10) entries. -/
theorem room_count_invariant (st : Registry) (hreach : Reachable st) :
    (st.rooms.length : Int) ≤ MAX_ROOMS ∧ MAX_ROOMS = 10 := by
  refine ⟨?_, rfl⟩
  induction hreach with
  | init => decide
  | accept st cs _ ih => rw [acceptClient_rooms]; exact ih
  | unit st sock buf out _ hreg hu ih =>
    exact roomCount_mutation hreg (handleUnit_mutation hreg hu) ih
  | close st st1 sock _ hreg ht ih => exact roomCount_teardown hreg ht ih

theorem room_count_invariant_witness :
    Reachable demo ∧ (demo.rooms.length : Int) ≤ MAX_ROOMS ∧ MAX_ROOMS = 10 :=
  ⟨demo_reachable, room_count_invariant demo demo_reachable⟩

/-! ## Rejected commands (C5 to C7) -/

theorem handleUnit_join {buf : String} {rest : List Char} (st : Registry) (sock : Int)
    (hcmd : readWord (cstr buf.data) = ("/join", rest)) :
    handleUnit st sock buf = cmdJoin st sock rest := by
  unfold handleUnit
  simp only [hcmd]
  rw [if_neg (by decide), if_neg (by decide), if_neg (by decide), if_pos trivial]

theorem handleUnit_create {buf : String} {rest : List Char} (st : Registry) (sock : Int)
    (hcmd : readWord (cstr buf.data) = ("/create", rest)) :
    handleUnit st sock buf = some (cmdCreate st sock rest) := by
  unfold handleUnit
  simp only [hcmd]
  rw [if_neg (by decide), if_neg (by decide), if_pos trivial]

theorem handleUnit_nick {buf : String} {rest : List Char} (st : Registry) (sock : Int)
    (hcmd : readWord (cstr buf.data) = ("/nick", rest)) :
    handleUnit st sock buf = some (cmdNick st sock rest) := by
  unfold handleUnit
  simp only [hcmd]
  exact if_pos trivial

/-- C5: a failed `/join` is atomic. For every registry, socket and unit that
reads as `/join id`: when `id` is out of range the iteration performs the single
send `"No such room\n"` to the joiner, and when room `id` exists and already has
40 members (or more) it performs the single send `"Room full\n"` to the joiner;
in both cases the registry that results is the registry it started from, and no
other send (so no broadcast) is made. -/
theorem failed_join_atomic (st : Registry) (sock : Int) (buf : String) (rest : List Char)
    (id : Int) (hcmd : readWord (cstr buf.data) = ("/join", rest))
    (hid : readInt rest = some id) :
    ((id < 0 ∨ (st.rooms.length : Int) ≤ id) →
      handleUnit st sock buf = some ⟨st, [(sock, "No such room\n")], false, []⟩) ∧
    (∀ target : Room, roomAt st.rooms id = some target →
      MAX_CLIENTS_PER_ROOM ≤ target.clients.card →
      handleUnit st sock buf = some ⟨st, [(sock, "Room full\n")], false, []⟩) := by
  rw [handleUnit_join st sock hcmd]
  unfold cmdJoin
  rw [hid]
  simp only
  constructor
  · intro hout
    rw [if_pos hout]
  · intro target ht hfull
    obtain ⟨h0, hget⟩ := roomAt_eq_some ht
    have hlt : id.toNat < st.rooms.length := by
      rw [List.getElem?_eq_some_iff] at hget
      exact hget.1
    rw [if_neg (by omega), ht]
    simp only [Option.some_bind]
    rw [if_pos hfull]

theorem failed_join_atomic_witness :
    handleUnit fullRoom 50 "/join 7\n" = some ⟨fullRoom, [(50, "No such room\n")], false, []⟩ ∧
    handleUnit fullRoom 50 "/join 0\n" = some ⟨fullRoom, [(50, "Room full\n")], false, []⟩ :=
  ⟨(failed_join_atomic fullRoom 50 "/join 7\n" [' ', '7', '\n'] 7 (by decide) (by decide)).1
      (by decide),
   (failed_join_atomic fullRoom 50 "/join 0\n" [' ', '0', '\n'] 0 (by decide) (by decide)).2
      ⟨"lobby", Finset.Icc 1 40⟩ (by decide) (by decide)⟩

/-- C6: `/create` at the room limit. For every registry whose room list already
holds `MAX_ROOMS` (10) rooms, every socket and every unit that reads as
`/create <anything>`, the iteration performs the single send
`"Max rooms reached\n"` to the issuer and leaves the registry as it was. -/
theorem create_at_limit_rejected (st : Registry) (sock : Int) (buf : String)
    (rest : List Char) (hcmd : readWord (cstr buf.data) = ("/create", rest))
    (hfull : MAX_ROOMS ≤ (st.rooms.length : Int)) :
    handleUnit st sock buf = some ⟨st, [(sock, "Max rooms reached\n")], false, []⟩ := by
  rw [handleUnit_create st sock hcmd]
  unfold cmdCreate
  simp only
  rw [if_pos hfull]

theorem create_at_limit_rejected_witness :
    MAX_ROOMS = 10 ∧ tenRooms.rooms.length = 10 ∧
    handleUnit tenRooms 4 "/create lobby\n"
      = some ⟨tenRooms, [(4, "Max rooms reached\n")], false, []⟩ :=
  ⟨rfl, by decide,
    create_at_limit_rejected tenRooms 4 "/create lobby\n"
      [' ', 'l', 'o', 'b', 'b', 'y', '\n'] (by decide) (by decide)⟩

/-- C7: a nickname collision is rejected without side effects. For every
registry in which some client `a` holds the non-empty nickname `n`, and every
socket `b`, a unit of `b` that reads as `/nick n` performs the single send
`"Nickname in use\n"` to `b` and leaves the registry as it was, so `a` still
holds `n` and the nickname of `b` is what it was. -/
theorem nick_collision_rejected (st : Registry) (a b : Int) (ca : Client) (n : String)
    (buf : String) (rest : List Char)
    (ha : st.clients.lookup a = some ca) (hn : ca.nick = n) (hne : n ≠ "") (_hab : b ≠ a)
    (hcmd : readWord (cstr buf.data) = ("/nick", rest)) (hname : (readWord rest).1 = n) :
    handleUnit st b buf = some ⟨st, [(b, "Nickname in use\n")], false, []⟩ := by
  rw [handleUnit_nick st b hcmd]
  unfold cmdNick
  simp only [hname]
  rw [if_neg hne, if_pos ((nickExists_iff st.clients n).2 ⟨a, ca, ha, hn⟩)]

theorem nick_collision_rejected_witness :
    demo.clients.lookup 4 = some ⟨4, "alice", 0⟩ ∧
    handleUnit demo 5 "/nick alice\n" = some ⟨demo, [(5, "Nickname in use\n")], false, []⟩ :=
  ⟨by decide,
    nick_collision_rejected demo 4 5 ⟨4, "alice", 0⟩ "alice" "/nick alice\n"
      [' ', 'a', 'l', 'i', 'c', 'e', '\n'] (by decide) rfl (by decide) (by decide)
      (by decide) (by decide)⟩

/-! ## Setting a nickname (C8) -/

/-- C8, as stated, fails: the only client is socket 4 and it holds `alice`, so
no client other than socket 4 holds `alice`; yet its unit `/nick alice` is
answered `"Nickname in use\n"`, not `"Nickname set\n"`. -/
theorem nick_own_name_counterexample :
    soloAlice.clients.lookup 4 = some ⟨4, "alice", -1⟩ ∧
    (∀ (h : Int) (d : Client), soloAlice.clients.lookup h = some d → h ≠ 4 →
      d.nick ≠ "alice") ∧
    handleUnit soloAlice 4 "/nick alice\n"
      = some ⟨soloAlice, [(4, "Nickname in use\n")], false, []⟩ ∧
    handleUnit soloAlice 4 "/nick alice\n"
      ≠ some ⟨setNick soloAlice 4 "alice", [(4, "Nickname set\n")], false, []⟩ := by
  refine ⟨by decide, ?_, by decide, by decide⟩
  intro h d hl hne
  have hnone : soloAlice.clients.lookup h = none := by
    rw [Finmap.lookup_eq_none]
    intro hmem
    have : h ∈ Finmap.singleton (4 : Int) (⟨4, "alice", -1⟩ : Client) := hmem
    rw [Finmap.mem_singleton] at this
    exact hne this
  rw [hnone] at hl
  cases hl

/-- C8, amended: for every registry, registered client `c` on socket `sock` and
non-empty name `n`, a unit that reads as `/nick n` sets the nickname of `c` to
`n` (overwriting the prior one, every other entry and the rooms untouched) and
sends `"Nickname set\n"` to `sock` when no client at all, `c` included, holds
`n`; it answers `"Nickname in use\n"` with the registry unchanged exactly when
some client, possibly `c` itself, holds `n`. -/
theorem nick_set_when_unused (st : Registry) (sock : Int) (c : Client) (n : String)
    (buf : String) (rest : List Char)
    (hc : st.clients.lookup sock = some c) (hne : n ≠ "")
    (hcmd : readWord (cstr buf.data) = ("/nick", rest)) (hname : (readWord rest).1 = n) :
    ((∀ (h : Int) (d : Client), st.clients.lookup h = some d → d.nick ≠ n) →
      handleUnit st sock buf
        = some ⟨⟨st.rooms, st.clients.insert sock { c with nick := n }⟩,
            [(sock, "Nickname set\n")], false, []⟩) ∧
    (handleUnit st sock buf = some ⟨st, [(sock, "Nickname in use\n")], false, []⟩ ↔
      ∃ (h : Int) (d : Client), st.clients.lookup h = some d ∧ d.nick = n) := by
  rw [handleUnit_nick st sock hcmd]
  unfold cmdNick
  simp only [hname]
  rw [if_neg hne]
  constructor
  · intro hfree
    have hno : ¬ nickExists st.clients n = true := by
      rw [nickExists_iff]
      rintro ⟨h, d, hl, hd⟩
      exact hfree h d hl hd
    rw [if_neg hno]
    unfold setNick
    rw [subscript_of_lookup hc]
  · constructor
    · intro hout
      by_cases hex : nickExists st.clients n = true
      · exact (nickExists_iff st.clients n).1 hex
      · rw [if_neg hex] at hout
        simp only [Option.some.injEq] at hout
        have hs := congrArg Outcome.sends hout
        simp only [List.cons.injEq, Prod.mk.injEq, and_true] at hs
        exact absurd hs.2 (by decide)
    · intro hex
      rw [if_pos ((nickExists_iff st.clients n).2 hex)]

theorem nick_set_when_unused_witness :
    demo.clients.lookup 6 = some ⟨6, "", -1⟩ ∧
    handleUnit demo 6 "/nick carol\n"
      = some ⟨⟨demo.rooms, demo.clients.insert 6 ⟨6, "carol", -1⟩⟩,
          [(6, "Nickname set\n")], false, []⟩ := by
  refine ⟨by decide, ?_⟩
  refine (nick_set_when_unused demo 6 ⟨6, "", -1⟩ "carol" "/nick carol\n"
    [' ', 'c', 'a', 'r', 'o', 'l', '\n'] (by decide) (by decide) (by decide) (by decide)).1 ?_
  intro h d hl
  have hmem : (h, d) ∈ entries demo.clients := (mem_entries demo.clients h d).2 hl
  have hall : ∀ p ∈ entries demo.clients, p.2.nick ≠ "carol" := by decide
  exact hall (h, d) hmem

/-! ## Broadcast and chat fan-out (C9, C10) -/

/-- In the sends built from a duplicate-free list of handles, exactly one is
addressed to each handle of the list. -/
theorem countP_addressed (l : List Int) (msg : String) (h : Int) (hn : l.Nodup)
    (hm : h ∈ l) :
    (l.map (fun x => ((x, msg) : Send))).countP (fun p => decide (p.1 = h)) = 1 := by
  induction l with
  | nil => cases hm
  | cons a t ih =>
    rw [List.nodup_cons] at hn
    rw [List.map_cons, List.countP_cons]
    by_cases e : a = h
    · subst e
      have hz : (t.map (fun x => ((x, msg) : Send))).countP (fun p => decide (p.1 = a)) = 0 := by
        rw [List.countP_eq_zero]
        intro p hp
        rw [List.mem_map] at hp
        obtain ⟨x, hx, rfl⟩ := hp
        simp only [decide_eq_true_eq]
        intro e
        exact hn.1 (e ▸ hx)
      rw [hz]
      simp
    · have ht : h ∈ t := by
        rcases List.mem_cons.1 hm with h1 | h1
        · exact absurd h1.symm e
        · exact h1
      rw [ih hn.2 ht]
      simp [e]

/-- The sends of one broadcast: each member other than `except` is addressed
once, nobody else is addressed, and every send carries the same message. -/
theorem delivery_spec (s : Finset Int) (msg : String) (except : Int) :
    let sends : List Send :=
      ((sortedHandles s).filter (fun x => x != except)).map (fun x => (x, msg))
    (∀ p ∈ sends, p.2 = msg) ∧
    (∀ h : Int, h ∈ s → h ≠ except → sends.countP (fun p => decide (p.1 = h)) = 1) ∧
    (∀ h : Int, (h ∉ s ∨ h = except) → ∀ m : String, (h, m) ∉ sends) := by
  intro sends
  have hmem : ∀ (h : Int) (m : String), (h, m) ∈ sends ↔ (h ∈ s ∧ h ≠ except) ∧ m = msg := by
    intro h m
    simp only [sends, List.mem_map, List.mem_filter, mem_sortedHandles, bne_iff_ne, ne_eq,
      Prod.mk.injEq]
    constructor
    · rintro ⟨a, ⟨ha, hax⟩, rfl, rfl⟩
      exact ⟨⟨ha, hax⟩, rfl⟩
    · rintro ⟨⟨ha, hax⟩, rfl⟩
      exact ⟨h, ⟨ha, hax⟩, rfl, rfl⟩
  refine ⟨?_, ?_, ?_⟩
  · rintro ⟨h, m⟩ hp
    exact ((hmem h m).1 hp).2
  · intro h hs hx
    refine countP_addressed _ msg h ((nodup_sortedHandles s).filter _) ?_
    rw [List.mem_filter, mem_sortedHandles]
    exact ⟨hs, by simpa using hx⟩
  · intro h hout m hp
    have := ((hmem h m).1 hp).1
    rcases hout with h1 | h1
    · exact h1 this.1
    · exact this.2 h1

/-- C9: `broadcast(room_id, msg, except)` with a valid `room_id` returns, leaves
the registry unchanged, and its sends are: `msg` exactly once to each handle in
`rooms[room_id].clients` other than `except` (every send carries `msg`, and
exactly one send is addressed to each such handle), and nothing to any other
handle; in particular nothing to `except`, member or not. -/
theorem broadcast_delivery (st : Registry) (room_id : Int) (msg : String) (except : Int)
    (h0 : 0 ≤ room_id) (h1 : room_id < (st.rooms.length : Int)) :
    ∃ (room : Room) (sends : List Send),
      roomAt st.rooms room_id = some room ∧
      broadcast st room_id msg except = some (st, sends) ∧
      (∀ p ∈ sends, p.2 = msg) ∧
      (∀ h : Int, h ∈ room.clients → h ≠ except →
        sends.countP (fun p => decide (p.1 = h)) = 1) ∧
      (∀ h : Int, (h ∉ room.clients ∨ h = except) → ∀ m : String, (h, m) ∉ sends) := by
  obtain ⟨room, hroom⟩ := roomAt_of_lt h0 h1
  refine ⟨room, _, hroom, ?_, delivery_spec room.clients msg except⟩
  unfold broadcast
  rw [hroom]

theorem broadcast_delivery_witness :
    (0 : Int) ≤ 0 ∧ (0 : Int) < (demo.rooms.length : Int) ∧
    ∃ (room : Room) (sends : List Send),
      roomAt demo.rooms 0 = some room ∧
      broadcast demo 0 "hi\n" 4 = some (demo, sends) ∧
      (∀ p ∈ sends, p.2 = "hi\n") ∧
      (∀ h : Int, h ∈ room.clients → h ≠ 4 →
        sends.countP (fun p => decide (p.1 = h)) = 1) ∧
      (∀ h : Int, (h ∉ room.clients ∨ h = 4) → ∀ m : String, (h, m) ∉ sends) :=
  ⟨by decide, by decide, broadcast_delivery demo 0 "hi\n" 4 (by decide) (by decide)⟩

theorem handleUnit_chat (st : Registry) (sock : Int) (buf : String)
    (hcmd : (readWord (cstr buf.data)).1 ∉ commandWords) :
    handleUnit st sock buf = cmdChat st sock (cstr buf.data) := by
  simp only [commandWords, List.mem_cons, List.mem_singleton, List.not_mem_nil, or_false,
    not_or] at hcmd
  obtain ⟨n1, n2, n3, n4, n5, n6, n7⟩ := hcmd
  unfold handleUnit
  simp only
  rw [if_neg n1, if_neg n2, if_neg n3, if_neg n4, if_neg n5, if_neg n6, if_neg n7]

/-- C10, as stated, fails: in a reachable registry `alice` (socket 4) and `bob`
(socket 5) share room 0; the received unit `hi`, NUL, `there` has a leading
token that is no command word, yet `bob` is sent `alice: hi`, not `alice: `
followed by the whole unit: the buffer is read as a C string and ends at its
first NUL byte. -/
theorem chat_unit_with_nul_counterexample :
    Reachable demo ∧ demo.clients.lookup 4 = some ⟨4, "alice", 0⟩ ∧
    (readWord ("hi\x00there" : String).data).1 ∉ commandWords ∧
    handleUnit demo 4 "hi\x00there" = some ⟨demo, [(5, "alice: hi")], false, []⟩ ∧
    handleUnit demo 4 "hi\x00there"
      ≠ some ⟨demo, [(5, "alice" ++ ": " ++ "hi\x00there")], false, []⟩ :=
  ⟨demo_reachable, by decide, by decide, by decide, by decide⟩

/-- C10, amended: ordinary chat fan-out has no cross-room leakage and no
self-delivery. For every reachable registry, registered sender `c` on `sock`
and received unit whose text (the unit up to its first NUL byte, the whole unit
when it has none) has a leading token that is no command word: if `c` has a set
nickname and is in a room, the iteration returns, each other member of that room
is addressed exactly once, every send carries the nickname, `": "` and the text,
and nobody else (not the sender, no handle outside the room) is sent anything;
if `c` has no nickname or no room, nothing is sent; in both cases the registry is
unchanged. -/
theorem chat_fanout (st : Registry) (hreach : Reachable st) (sock : Int) (c : Client)
    (buf : String) (hc : st.clients.lookup sock = some c)
    (hcmd : (readWord (cstr buf.data)).1 ∉ commandWords) :
    (c.nick ≠ "" → 0 ≤ c.room_id →
      ∃ (room : Room) (sends : List Send),
        roomAt st.rooms c.room_id = some room ∧
        handleUnit st sock buf = some ⟨st, sends, false, []⟩ ∧
        (∀ p ∈ sends, p.2 = c.nick ++ ": " ++ String.mk (cstr buf.data)) ∧
        (∀ h : Int, h ∈ room.clients → h ≠ sock →
          sends.countP (fun p => decide (p.1 = h)) = 1) ∧
        (∀ h : Int, (h ∉ room.clients ∨ h = sock) → ∀ m : String, (h, m) ∉ sends)) ∧
    ((c.nick = "" ∨ c.room_id < 0) → handleUnit st sock buf = some ⟨st, [], false, []⟩) := by
  rw [handleUnit_chat st sock buf hcmd]
  unfold cmdChat
  rw [subscript_of_lookup hc]
  simp only
  constructor
  · intro hnick hroom
    have hrange := (membership_reachable hreach).range sock c hc
    have hlt : c.room_id < (st.rooms.length : Int) := by omega
    obtain ⟨room, hr⟩ := roomAt_of_lt hroom hlt
    refine ⟨room, _, hr, ?_, delivery_spec room.clients _ sock⟩
    rw [if_pos ⟨hroom, hnick⟩]
    unfold broadcast
    rw [hr]
    rfl
  · intro hno
    rw [if_neg]
    rintro ⟨h1, h2⟩
    rcases hno with h3 | h3
    · exact h2 h3
    · omega

theorem chat_fanout_witness :
    Reachable demo ∧ demo.clients.lookup 4 = some ⟨4, "alice", 0⟩ ∧
    (readWord (cstr ("hello\n" : String).data)).1 ∉ commandWords ∧
    ∃ (room : Room) (sends : List Send),
      roomAt demo.rooms 0 = some room ∧
      handleUnit demo 4 "hello\n" = some ⟨demo, sends, false, []⟩ ∧
      (∀ p ∈ sends, p.2 = "alice" ++ ": " ++ String.mk (cstr ("hello\n" : String).data)) ∧
      (∀ h : Int, h ∈ room.clients → h ≠ 4 →
        sends.countP (fun p => decide (p.1 = h)) = 1) ∧
      (∀ h : Int, (h ∉ room.clients ∨ h = 4) → ∀ m : String, (h, m) ∉ sends) :=
  ⟨demo_reachable, by decide, by decide,
    (chat_fanout demo demo_reachable 4 ⟨4, "alice", 0⟩ "hello\n" (by decide) (by decide)).1
      (by decide) (by decide)⟩

/-! ## A successful join (C11) -/

theorem append_newline_ne_empty (s : String) : s ++ "\n" ≠ "" := by
  intro h
  have h1 := congrArg String.length h
  rw [String.length_append] at h1
  have h2 : ("\n" : String).length = 1 := by decide
  have h3 : ("" : String).length = 0 := by decide
  omega

theorem broadcast_eq_fanout {st : Registry} {room_id : Int} {room : Room}
    (h : roomAt st.rooms room_id = some room) (msg : String) (except : Int) :
    broadcast st room_id msg except = some (st, fanout room.clients msg except) := by
  unfold broadcast
  rw [h]
  rfl

theorem membersOf_of_roomAt {rooms : List Room} {i : Int} {room : Room}
    (h : roomAt rooms i = some room) : membersOf rooms i = room.clients := by
  unfold membersOf
  rw [h]

theorem membersOf_of_none {rooms : List Room} {i : Int}
    (h : roomAt rooms i = none) : membersOf rooms i = ∅ := by
  unfold membersOf
  rw [h]

theorem roomAt_eq_none_of_length {rooms rooms1 : List Room} {i : Int}
    (hlen : rooms1.length = rooms.length) (h : roomAt rooms1 i = none) :
    roomAt rooms i = none := by
  unfold roomAt at h ⊢
  split
  · rename_i h0
    rw [if_pos h0] at h
    rw [List.getElem?_eq_none_iff] at h ⊢
    omega
  · rfl

/-- The membership sets after a successful `/join`, as sets. -/
theorem membersOf_joinState {st st1 : Registry} {sock id : Int} {c : Client}
    (hc : st.clients.lookup sock = some c) (h : joinState st sock id = some st1) (i : Int) :
    membersOf st1.rooms i =
      if i = id then
        insert sock (if i = c.room_id then (membersOf st.rooms i).erase sock
                     else membersOf st.rooms i)
      else if i = c.room_id then (membersOf st.rooms i).erase sock
      else membersOf st.rooms i := by
  obtain ⟨h0, hlt, hlen, _, hspec⟩ := joinState_spec hc h
  cases h1 : roomAt st1.rooms i with
  | none =>
    have h2 := roomAt_eq_none_of_length hlen h1
    rw [membersOf_of_none h1, membersOf_of_none h2]
    have hne : ¬ i = id := by
      intro e
      subst e
      obtain ⟨r, hr⟩ := @roomAt_of_lt st.rooms _ h0 hlt
      rw [h2] at hr
      cases hr
    rw [if_neg hne]
    split <;> simp
  | some room1 =>
    obtain ⟨hi0, hget⟩ := roomAt_eq_some h1
    obtain ⟨room0, hr0, _, hcls⟩ := hspec i.toNat room1 hget
    have hcast : (i.toNat : Int) = i := Int.toNat_of_nonneg hi0
    have h2 : roomAt st.rooms i = some room0 := by
      unfold roomAt
      rw [if_pos hi0]
      exact hr0
    rw [membersOf_of_roomAt h1, membersOf_of_roomAt h2, hcls, hcast]

/-- In a registry whose invariant holds, a client is a member only of the
room its `room_id` names. -/
theorem room_id_of_mem_membersOf {st : Registry} (hm : Membership st) {sock : Int}
    {c : Client} (hc : st.clients.lookup sock = some c) {p : Int}
    (h : sock ∈ membersOf st.rooms p) : c.room_id = p := by
  cases h1 : roomAt st.rooms p with
  | none => rw [membersOf_of_none h1] at h; simp at h
  | some room =>
    rw [membersOf_of_roomAt h1] at h
    obtain ⟨h0, hget⟩ := roomAt_eq_some h1
    have := (hm.agree sock c hc p.toNat room hget).1 h
    rw [this]
    exact Int.toNat_of_nonneg h0

theorem joinState_of_valid {st : Registry} (hm : Membership st) {sock id : Int} {c : Client}
    (hc : st.clients.lookup sock = some c) (h0 : 0 ≤ id) (h1 : id < (st.rooms.length : Int)) :
    ∃ st1, joinState st sock id = some st1 := by
  unfold joinState
  rw [subscript_of_lookup hc]
  simp only
  have hrange := hm.range sock c hc
  have he : ∃ rooms1, (if 0 ≤ c.room_id then eraseMember st.rooms c.room_id sock
      else some st.rooms) = some rooms1 := by
    split
    · rename_i hp
      exact eraseMember_of_lt st.rooms sock hp (by omega)
    · exact ⟨_, rfl⟩
  obtain ⟨rooms1, hr1⟩ := he
  obtain ⟨hlen, _⟩ := eraseIf_spec hr1
  obtain ⟨rooms2, hr2⟩ := insertMember_of_lt rooms1 sock h0 (by omega)
  rw [hr1]
  simp only [Option.some_bind]
  rw [hr2]
  exact ⟨_, rfl⟩

/-- The result of a successful `/join`: the new registry, the reply, and the
calls that follow: the leave notice when there was a previous room, the join
notice when the nickname is set. -/
theorem cmdJoin_success {st : Registry} (hm : Membership st) {sock id : Int} {c : Client}
    {rest : List Char} {target : Room}
    (hc : st.clients.lookup sock = some c) (hid : readInt rest = some id)
    (ht : roomAt st.rooms id = some target)
    (hfree : target.clients.card < MAX_CLIENTS_PER_ROOM) :
    ∃ st1, joinState st sock id = some st1 ∧
      cmdJoin st sock rest = some ⟨st1, [(sock, "Joined room\n")], false,
        (if 0 ≤ c.room_id then
            [(⟨c.room_id, c.nick ++ " left room " ++ toString c.room_id ++ "\n", sock⟩ : Call)]
          else []) ++
        (if c.nick ≠ "" then
            [(⟨id, c.nick ++ " joined room " ++ toString id ++ "\n", sock⟩ : Call)]
          else [])⟩ := by
  obtain ⟨h0, hget⟩ := roomAt_eq_some ht
  have hlt : id < (st.rooms.length : Int) := by
    rw [List.getElem?_eq_some_iff] at hget
    obtain ⟨hl, _⟩ := hget
    omega
  obtain ⟨st1, hj⟩ := joinState_of_valid hm hc h0 hlt
  refine ⟨st1, hj, ?_⟩
  unfold cmdJoin
  rw [hid]
  simp only
  rw [if_neg (by omega), ht]
  simp only [Option.some_bind]
  rw [if_neg (by omega), subscript_of_lookup hc, hj]
  simp only [Option.map_some']
  by_cases hp : 0 ≤ c.room_id
  · rw [if_pos hp, if_pos hp, if_pos ⟨hp, append_newline_ne_empty _⟩]
    by_cases hn : c.nick = ""
    · rw [if_neg (by simp [hn]), if_neg (by simp [hn])]
    · rw [if_pos ⟨by simpa using hn, append_newline_ne_empty _⟩, if_pos hn]
  · rw [if_neg hp, if_neg hp, if_neg (fun h => hp h.1)]
    by_cases hn : c.nick = ""
    · rw [if_neg (by simp [hn]), if_neg (by simp [hn])]
    · rw [if_pos ⟨by simpa using hn, append_newline_ne_empty _⟩, if_pos hn]

/-- The sends of a fan-out: every send carries the message, each handle of the
snapshot other than `except` is addressed once, nobody else is addressed. -/
theorem fanout_spec (s : Finset Int) (msg : String) (except : Int) :
    (∀ p ∈ fanout s msg except, p.2 = msg) ∧
    (∀ h : Int, h ∈ s → h ≠ except →
      (fanout s msg except).countP (fun p => decide (p.1 = h)) = 1) ∧
    (∀ h : Int, (h ∉ s ∨ h = except) → ∀ m : String, (h, m) ∉ fanout s msg except) :=
  delivery_spec s msg except

theorem names_eq_of_rooms {rooms rooms1 : List Room} (hlen : rooms1.length = rooms.length)
    (hspec : ∀ (r : Nat) (room1 : Room), rooms1[r]? = some room1 →
      ∃ room0, rooms[r]? = some room0 ∧ room1.name = room0.name) :
    rooms1.map Room.name = rooms.map Room.name := by
  apply List.ext_getElem?
  intro r
  rw [List.getElem?_map, List.getElem?_map]
  cases h1 : rooms1[r]? with
  | none =>
    rw [List.getElem?_eq_none_iff] at h1
    have h0 : rooms[r]? = none := by
      rw [List.getElem?_eq_none_iff]
      omega
    rw [h0]
  | some room1 =>
    obtain ⟨room0, h0, hn⟩ := hspec r room1 h1
    rw [h0]
    simp only [Option.map_some', hn]

theorem mem_membersOf_joinState_ne {st st1 : Registry} {sock id : Int} {c : Client}
    (hc : st.clients.lookup sock = some c) (hj : joinState st sock id = some st1)
    {h : Int} (hne : h ≠ sock) (p : Int) :
    h ∈ membersOf st1.rooms p ↔ h ∈ membersOf st.rooms p := by
  rw [membersOf_joinState hc hj]
  split_ifs <;> simp [hne]

/-- C11: a successful `/join` moves membership. For every reachable registry,
registered client `c` on `sock` and unit reading as `/join id` with `id` a valid
index whose room has fewer than 40 members, the iteration returns and
afterwards: the handle of `c` is in `rooms[id].clients`; its `room_id` is `id`
(nickname and `sock` field kept); the handle is in no other room, in particular
not in the room it was in before; every other client's entry is unchanged; the
membership of every other handle in every room is unchanged, and every room
other than `id` and the previous one keeps its whole membership set; room names
are unchanged; the one send addressed to `c` is `"Joined room\n"`: it is the
only send of the guarded block, and neither of the `broadcast` calls that follow
sends anything to `c`, on whatever registry it runs. -/
theorem join_moves_membership (st : Registry) (hreach : Reachable st) (sock : Int)
    (c : Client) (buf : String) (rest : List Char) (id : Int) (target : Room)
    (hc : st.clients.lookup sock = some c)
    (hcmd : readWord (cstr buf.data) = ("/join", rest)) (hid : readInt rest = some id)
    (ht : roomAt st.rooms id = some target)
    (hfree : target.clients.card < MAX_CLIENTS_PER_ROOM) :
    ∃ out : Outcome, handleUnit st sock buf = some out ∧
      out.sends.filter (fun s => decide (s.1 = sock)) = [(sock, "Joined room\n")] ∧
      out.state.clients.lookup sock = some { c with room_id := id } ∧
      sock ∈ membersOf out.state.rooms id ∧
      (∀ p : Int, p ≠ id → sock ∉ membersOf out.state.rooms p) ∧
      (∀ h : Int, h ≠ sock → out.state.clients.lookup h = st.clients.lookup h) ∧
      (∀ h p : Int, h ≠ sock →
        (h ∈ membersOf out.state.rooms p ↔ h ∈ membersOf st.rooms p)) ∧
      (∀ p : Int, p ≠ id → p ≠ c.room_id →
        membersOf out.state.rooms p = membersOf st.rooms p) ∧
      out.state.rooms.map Room.name = st.rooms.map Room.name ∧
      out.sends = [(sock, "Joined room\n")] ∧
      (∀ call ∈ out.calls, ∀ (st2 : Registry) (b : Registry × List Send),
        runCall st2 call = some b → ∀ m : String, (sock, m) ∉ b.2) := by
  have hm := membership_reachable hreach
  obtain ⟨st1, hj, hout⟩ := cmdJoin_success hm hc hid ht hfree
  obtain ⟨_, _, hlen, hcl, hspec⟩ := joinState_spec hc hj
  rw [handleUnit_join st sock hcmd, hout]
  refine ⟨_, rfl, ?_, ?_, ?_, ?_, ?_, ?_, ?_, ?_, rfl, ?_⟩
  · simp
  · simp only
    rw [hcl, lookup_setRoom id hc, if_pos rfl]
  · simp only
    rw [membersOf_joinState hc hj, if_pos rfl]
    exact Finset.mem_insert_self _ _
  · intro p hp
    simp only
    rw [membersOf_joinState hc hj, if_neg hp]
    split
    · simp
    · rename_i hne
      intro hmem
      exact hne (room_id_of_mem_membersOf hm hc hmem).symm
  · intro h hne
    simp only
    rw [hcl, lookup_setRoom id hc, if_neg hne]
  · intro h p hne
    exact mem_membersOf_joinState_ne hc hj hne p
  · intro p hp1 hp2
    simp only
    rw [membersOf_joinState hc hj, if_neg hp1, if_neg hp2]
  · exact names_eq_of_rooms hlen (fun r room1 hr =>
      let ⟨room0, h0, hn, _⟩ := hspec r room1 hr
      ⟨room0, h0, hn⟩)
  · intro call hcall st2 b hb m hmem
    have hex : call.except = sock := by
      simp only [List.mem_append] at hcall
      rcases hcall with h1 | h1
      · split at h1
        · simp only [List.mem_singleton] at h1
          rw [h1]
        · cases h1
      · split at h1
        · simp only [List.mem_singleton] at h1
          rw [h1]
        · cases h1
    unfold runCall broadcast at hb
    split at hb
    · cases hb
    · rename_i room _
      simp only [Option.some.injEq] at hb
      rw [← hb, hex] at hmem
      exact (fanout_spec room.clients call.msg sock).2.2 sock (Or.inr rfl) m hmem

theorem join_moves_membership_witness :
    Reachable demo ∧ demo.clients.lookup 4 = some ⟨4, "alice", 0⟩ ∧
    roomAt demo.rooms 1 = some ⟨"den", ∅⟩ ∧
    ∃ out : Outcome, handleUnit demo 4 "/join 1\n" = some out ∧
      out.state.clients.lookup 4 = some ⟨4, "alice", 1⟩ ∧
      (4 : Int) ∈ membersOf out.state.rooms 1 ∧
      (4 : Int) ∉ membersOf out.state.rooms 0 := by
  refine ⟨demo_reachable, by decide, by decide, ?_⟩
  obtain ⟨out, h1, _, h3, h4, h5, _⟩ :=
    join_moves_membership demo demo_reachable 4 ⟨4, "alice", 0⟩ "/join 1\n"
      [' ', '1', '\n'] 1 ⟨"den", ∅⟩ (by decide) (by decide) (by decide) (by decide)
      (by decide)
  exact ⟨out, h1, h3, h4, h5 0 (by decide)⟩

/-! ## Whisper (C12, C13) -/

theorem handleUnit_whisper {buf : String} {rest : List Char} (st : Registry) (sock : Int)
    (hcmd : readWord (cstr buf.data) = ("/w", rest)) :
    handleUnit st sock buf = some (cmdWhisper st sock rest) := by
  unfold handleUnit
  simp only [hcmd]
  rw [if_neg (by decide), if_neg (by decide), if_neg (by decide), if_neg (by decide),
    if_pos trivial]

/-- C12, the code at the failing input: in the reachable registry `demo`
socket 6 is connected and has not set a nickname (its `nick` is empty, so no
client holds the empty token as a set nickname); a bare `/w` from socket 4 has
the empty target token, and the code sends socket 6 a whisper instead of
dropping the unit. -/
theorem whisper_bare_reaches_unnamed :
    Reachable demo ∧ demo.clients.lookup 6 = some ⟨6, "", -1⟩ ∧
    readWord (cstr ("/w\n" : String).data) = ("/w", ['\n']) ∧
    (readWord ['\n']).1 = "" ∧
    handleUnit demo 4 "/w\n" = some ⟨demo, [(6, "(whisper) alice:\n")], false, []⟩ :=
  ⟨demo_reachable, by decide, by decide, by decide, by decide⟩

/-- With unique nicknames, the loop of `/w` stops at the one holder of a set
nickname. -/
theorem findNick_of_holder {st : Registry} (hu : NickUnique st) {hT : Int} {cT : Client}
    {t : String} (hl : st.clients.lookup hT = some cT) (ht : cT.nick = t) (hne : t ≠ "") :
    findNick st.clients t = some hT := by
  unfold findNick
  cases hf : (entries st.clients).find? (fun p => p.2.nick == t) with
  | none =>
    rw [List.find?_eq_none] at hf
    have := hf (hT, cT) ((mem_entries _ _ _).2 hl)
    simp [ht] at this
  | some p =>
    have hp := List.find?_some hf
    have hmem := List.mem_of_find?_eq_some hf
    obtain ⟨k, d⟩ := p
    have hk := (mem_entries _ _ _).1 hmem
    have hd : d.nick = t := by simpa using hp
    simp only [Option.map_some', Option.some.injEq]
    by_contra hkne
    exact hu k hT d cT hk hl hkne (by rw [hd]; exact hne) (hd.trans ht.symm)

/-- A whisper whose target token equals the `nick` field of no entry of the
client table is dropped: nothing is sent and the registry is unchanged. -/
theorem whisper_unknown_dropped (st : Registry) (sock : Int) (buf : String)
    (rest : List Char) (hcmd : readWord (cstr buf.data) = ("/w", rest))
    (hno : ∀ (k : Int) (d : Client), st.clients.lookup k = some d →
      d.nick ≠ (readWord rest).1) :
    handleUnit st sock buf = some ⟨st, [], false, []⟩ := by
  rw [handleUnit_whisper st sock hcmd]
  unfold cmdWhisper
  simp only
  have hnone : findNick st.clients (readWord rest).1 = none := by
    unfold findNick
    rw [Option.map_eq_none', List.find?_eq_none]
    rintro ⟨k, d⟩ hmem
    have := hno k d ((mem_entries _ _ _).1 hmem)
    simpa using this
  rw [hnone]

/-- C13, as stated, fails: `bob` is socket 5; the unit `/w bob hi`, NUL,
`there`, newline from `alice` has the remainder ` hi`, NUL, `there` after the
target token up to the newline, yet the whisper sent is `(whisper) alice: hi`
and a newline: the buffer is read as a C string and ends at its first NUL. -/
theorem whisper_with_nul_counterexample :
    Reachable demo ∧ demo.clients.lookup 5 = some ⟨5, "bob", 0⟩ ∧
    demo.clients.lookup 4 = some ⟨4, "alice", 0⟩ ∧
    handleUnit demo 4 "/w bob hi\x00there\n"
      = some ⟨demo, [(5, "(whisper) alice: hi\n")], false, []⟩ ∧
    handleUnit demo 4 "/w bob hi\x00there\n"
      ≠ some ⟨demo, [(5, "(whisper) " ++ "alice" ++ ":" ++ " hi\x00there" ++ "\n")], false, []⟩ :=
  ⟨demo_reachable, by decide, by decide, by decide, by decide⟩

/-- C13, amended: a whisper reaches only its target, in the documented format.
For every reachable registry in which client `hT` holds the non-empty nickname
`t`, a unit of the registered sender `c` whose text (the unit up to its first
NUL byte) reads as `/w`, then the token `t`, sends exactly one message, to
`hT`: `"(whisper) "`, the sender's nickname (possibly empty), `":"`, the
remainder of the text after the target token up to the first newline, and a
newline; nothing goes to any other handle, whatever the rooms; the registry is
unchanged. -/
theorem whisper_reaches_target (st : Registry) (hreach : Reachable st) (sock hT : Int)
    (c cT : Client) (t : String) (buf : String) (rest : List Char)
    (hc : st.clients.lookup sock = some c) (hl : st.clients.lookup hT = some cT)
    (ht : cT.nick = t) (hne : t ≠ "")
    (hcmd : readWord (cstr buf.data) = ("/w", rest)) (htok : (readWord rest).1 = t) :
    handleUnit st sock buf
      = some ⟨st, [(hT, "(whisper) " ++ c.nick ++ ":"
          ++ String.mk ((readWord rest).2.takeWhile (fun x => x != '\n')) ++ "\n")], false, []⟩ := by
  rw [handleUnit_whisper st sock hcmd]
  unfold cmdWhisper
  simp only [htok]
  rw [findNick_of_holder (nickUnique_reachable hreach) hl ht hne]
  simp only
  rw [subscript_of_lookup hc]
  rfl

theorem whisper_reaches_target_witness :
    Reachable demo ∧ demo.clients.lookup 4 = some ⟨4, "alice", 0⟩ ∧
    demo.clients.lookup 5 = some ⟨5, "bob", 0⟩ ∧
    handleUnit demo 4 "/w bob hi there\n"
      = some ⟨demo, [(5, "(whisper) " ++ "alice" ++ ":"
          ++ String.mk ((readWord [' ', 'b', 'o', 'b', ' ', 'h', 'i', ' ', 't', 'h', 'e', 'r',
              'e', '\n']).2.takeWhile (fun x => x != '\n')) ++ "\n")], false, []⟩ :=
  ⟨demo_reachable, by decide, by decide,
    whisper_reaches_target demo demo_reachable 4 5 ⟨4, "alice", 0⟩ ⟨5, "bob", 0⟩ "bob"
      "/w bob hi there\n"
      [' ', 'b', 'o', 'b', ' ', 'h', 'i', ' ', 't', 'h', 'e', 'r', 'e', '\n']
      (by decide) (by decide) rfl (by decide) (by decide) (by decide)⟩

/-! ## Room listing (C14) -/

theorem handleUnit_list {buf : String} {rest : List Char} (st : Registry) (sock : Int)
    (hcmd : readWord (cstr buf.data) = ("/list", rest)) :
    handleUnit st sock buf = some (cmdList st sock) := by
  unfold handleUnit
  simp only [hcmd]
  rw [if_neg (by decide), if_pos trivial]

theorem string_join_cons (a : String) (l : List String) :
    String.join (a :: l) = a ++ String.join l := by
  apply String.ext
  rw [String.join_eq, String.data_append, String.join_eq]
  simp

theorem listLines_cons (k : Nat) (r : Room) (rs : List Room) :
    listLines k (r :: rs) = roomLineBySpec k r ++ listLines (k + 1) rs := by
  have e : toString MAX_CLIENTS_PER_ROOM = "40" := by decide
  have e2 : "/" ++ ("40" ++ ")\n") = "/40)\n" := by decide
  unfold roomLineBySpec
  rw [listLines, e, ← e2]
  simp only [String.append_assoc]

theorem listLines_eq (rooms : List Room) (k : Nat) :
    listLines k rooms
      = String.join (List.ofFn (fun i : Fin rooms.length =>
          roomLineBySpec (k + i.val) rooms[i.val])) := by
  induction rooms generalizing k with
  | nil => rfl
  | cons r rs ih =>
    rw [listLines_cons, ih (k + 1)]
    simp only [List.length_cons, List.ofFn_succ, Fin.val_zero, Nat.add_zero,
      List.getElem_cons_zero, Fin.val_succ, List.getElem_cons_succ]
    rw [string_join_cons]
    congr 3
    funext i
    congr 1
    omega

/-- C14: `/list` returns a faithful snapshot. For every registry, socket and
unit reading as `/list`, the iteration performs one send, to the issuer:
`"Rooms:\n"` followed, for each index `i` from 0 to `rooms.size() - 1` in order,
by the decimal `i`, `". "`, the name of room `i`, `" ("`, the decimal size of its
membership set and `"/40)\n"`; nothing is sent to anyone else and the registry
is unchanged. -/
theorem list_reply_snapshot (st : Registry) (sock : Int) (buf : String) (rest : List Char)
    (hcmd : readWord (cstr buf.data) = ("/list", rest)) :
    handleUnit st sock buf = some ⟨st, [(sock, listingBySpec st.rooms)], false, []⟩ := by
  rw [handleUnit_list st sock hcmd]
  unfold cmdList listingBySpec
  rw [listLines_eq st.rooms 0]
  simp only [Nat.zero_add]

theorem list_reply_snapshot_witness :
    listingBySpec demo.rooms = "Rooms:\n0. lobby (2/40)\n1. den (0/40)\n" ∧
    handleUnit demo 6 "/list\n" = some ⟨demo, [(6, listingBySpec demo.rooms)], false, []⟩ :=
  ⟨by decide, list_reply_snapshot demo 6 "/list\n" ['\n'] (by decide)⟩

/-! ## Leaving a room and closing a session (C15, C16) -/

theorem handleUnit_exit {buf : String} {rest : List Char} (st : Registry) (sock : Int)
    (hcmd : readWord (cstr buf.data) = ("/exit", rest)) :
    handleUnit st sock buf = cmdExit st sock := by
  unfold handleUnit
  simp only [hcmd]
  rw [if_neg (by decide), if_neg (by decide), if_neg (by decide), if_neg (by decide),
    if_neg (by decide), if_pos trivial]

theorem handleUnit_quit (st : Registry) (sock : Int) (buf : String)
    (hcmd : (readWord (cstr buf.data)).1 = "/quit") :
    handleUnit st sock buf = some ⟨st, [], true, []⟩ := by
  unfold handleUnit
  simp only [hcmd]
  rw [if_neg (by decide), if_neg (by decide), if_neg (by decide), if_neg (by decide),
    if_neg (by decide), if_neg (by decide), if_pos trivial]

/-- The membership sets after the optional `rooms[prev].clients.erase(sock)`. -/
theorem membersOf_eraseIf {rooms rooms1 : List Room} {prev sock : Int}
    (h : (if 0 ≤ prev then eraseMember rooms prev sock else some rooms) = some rooms1)
    (i : Int) :
    membersOf rooms1 i
      = if i = prev then (membersOf rooms i).erase sock else membersOf rooms i := by
  obtain ⟨hlen, hspec⟩ := eraseIf_spec h
  cases h1 : roomAt rooms1 i with
  | none =>
    have h2 := roomAt_eq_none_of_length hlen h1
    rw [membersOf_of_none h1, membersOf_of_none h2]
    split <;> simp
  | some room1 =>
    obtain ⟨hi0, hget⟩ := roomAt_eq_some h1
    obtain ⟨room0, hr0, _, hcls⟩ := hspec i.toNat room1 hget
    have hcast : (i.toNat : Int) = i := Int.toNat_of_nonneg hi0
    have h2 : roomAt rooms i = some room0 := by
      unfold roomAt
      rw [if_pos hi0]
      exact hr0
    rw [membersOf_of_roomAt h1, membersOf_of_roomAt h2, hcls, hcast]

/-- After the erase, the closing or leaving client is in no room. -/
theorem not_mem_membersOf_eraseIf {st : Registry} (hm : Membership st) {sock : Int}
    {c : Client} (hc : st.clients.lookup sock = some c) {rooms1 : List Room}
    (h : (if 0 ≤ c.room_id then eraseMember st.rooms c.room_id sock else some st.rooms)
      = some rooms1) (p : Int) : sock ∉ membersOf rooms1 p := by
  rw [membersOf_eraseIf h]
  split
  · simp
  · rename_i hne
    intro hmem
    exact hne (room_id_of_mem_membersOf hm hc hmem).symm

/-- C15: `/exit` removes membership silently for the others. For every
reachable registry, registered client `c` on `sock` and unit reading as `/exit`:
if `c` is in a room, the iteration returns, afterwards the handle is in no
room's membership set (so not in that room's), `room_id` is -1, the only send is
`"Left room\n"` to `sock` (no notice to the remaining members), every other
client's entry, every other handle's membership, every other room's membership
set and all room names are unchanged; if `c` is in no room, nothing is sent and
the registry is unchanged. -/
theorem exit_leaves_room (st : Registry) (hreach : Reachable st) (sock : Int) (c : Client)
    (buf : String) (rest : List Char) (hc : st.clients.lookup sock = some c)
    (hcmd : readWord (cstr buf.data) = ("/exit", rest)) :
    (0 ≤ c.room_id →
      ∃ out : Outcome, handleUnit st sock buf = some out ∧
        out.sends = [(sock, "Left room\n")] ∧
        out.state.clients.lookup sock = some { c with room_id := -1 } ∧
        (∀ p : Int, sock ∉ membersOf out.state.rooms p) ∧
        (∀ h : Int, h ≠ sock → out.state.clients.lookup h = st.clients.lookup h) ∧
        (∀ h p : Int, h ≠ sock →
          (h ∈ membersOf out.state.rooms p ↔ h ∈ membersOf st.rooms p)) ∧
        (∀ p : Int, p ≠ c.room_id → membersOf out.state.rooms p = membersOf st.rooms p) ∧
        out.state.rooms.map Room.name = st.rooms.map Room.name) ∧
    (c.room_id < 0 → handleUnit st sock buf = some ⟨st, [], false, []⟩) := by
  have hm := membership_reachable hreach
  rw [handleUnit_exit st sock hcmd]
  unfold cmdExit
  rw [subscript_of_lookup hc]
  simp only
  constructor
  · intro hge
    have hrange := hm.range sock c hc
    obtain ⟨rooms1, he⟩ := eraseMember_of_lt st.rooms sock hge (by omega)
    have hif : (if 0 ≤ c.room_id then eraseMember st.rooms c.room_id sock
        else some st.rooms) = some rooms1 := by rw [if_pos hge]; exact he
    obtain ⟨_, _, hlen, hspec⟩ := eraseMember_spec he
    rw [if_pos hge, he]
    refine ⟨_, rfl, rfl, ?_, ?_, ?_, ?_, ?_, ?_⟩
    · simp only
      rw [lookup_setRoom (-1) hc, if_pos rfl]
    · intro p
      exact not_mem_membersOf_eraseIf hm hc hif p
    · intro h hne
      simp only
      rw [lookup_setRoom (-1) hc, if_neg hne]
    · intro h p hne
      simp only
      rw [membersOf_eraseIf hif]
      split <;> simp [hne]
    · intro p hp
      simp only
      rw [membersOf_eraseIf hif, if_neg hp]
    · exact names_eq_of_rooms hlen (fun r room1 hr =>
        let ⟨room0, h0, hn, _⟩ := hspec r room1 hr
        ⟨room0, h0, hn⟩)
  · intro hlt
    rw [if_neg (by omega)]

theorem exit_leaves_room_witness :
    Reachable demo ∧ demo.clients.lookup 4 = some ⟨4, "alice", 0⟩ ∧
    ∃ out : Outcome, handleUnit demo 4 "/exit\n" = some out ∧
      out.sends = [(4, "Left room\n")] ∧
      out.state.clients.lookup 4 = some ⟨4, "alice", -1⟩ ∧
      (4 : Int) ∉ membersOf out.state.rooms 0 := by
  refine ⟨demo_reachable, by decide, ?_⟩
  obtain ⟨out, h1, h2, h3, h4, _⟩ :=
    (exit_leaves_room demo demo_reachable 4 ⟨4, "alice", 0⟩ "/exit\n" ['\n']
      (by decide) (by decide)).1 (by decide)
  exact ⟨out, h1, h2, h3, h4 0⟩

/-- C16: session teardown fully cleans up. For every reachable registry and
registered client `c` on `sock`, the cleanup block returns, and afterwards
`sock` is absent from the client table and from every room's membership set,
while every other client's entry (nickname and room), every room's name and
every other handle's membership are unchanged; a unit whose first word is
`/quit` leaves the loop with the registry untouched, so the same block runs
next. -/
theorem teardown_cleans_up (st : Registry) (hreach : Reachable st) (sock : Int)
    (c : Client) (hc : st.clients.lookup sock = some c) :
    (∃ st1 : Registry, teardown st sock = some st1 ∧
      sock ∉ st1.clients ∧
      (∀ room ∈ st1.rooms, sock ∉ room.clients) ∧
      (∀ h : Int, h ≠ sock → st1.clients.lookup h = st.clients.lookup h) ∧
      (∀ h p : Int, h ≠ sock → (h ∈ membersOf st1.rooms p ↔ h ∈ membersOf st.rooms p)) ∧
      st1.rooms.map Room.name = st.rooms.map Room.name) ∧
    (∀ buf : String, (readWord (cstr buf.data)).1 = "/quit" →
      handleUnit st sock buf = some ⟨st, [], true, []⟩) := by
  have hm := membership_reachable hreach
  refine ⟨?_, fun buf hq => handleUnit_quit st sock buf hq⟩
  have hrange := hm.range sock c hc
  have he : ∃ rooms1, (if 0 ≤ c.room_id then eraseMember st.rooms c.room_id sock
      else some st.rooms) = some rooms1 := by
    split
    · rename_i hp
      exact eraseMember_of_lt st.rooms sock hp (by omega)
    · exact ⟨_, rfl⟩
  obtain ⟨rooms1, hr1⟩ := he
  obtain ⟨hlen, hspec⟩ := eraseIf_spec hr1
  have ht : teardown st sock = some ⟨rooms1, st.clients.erase sock⟩ := by
    unfold teardown
    rw [subscript_of_lookup hc]
    simp only
    rw [hr1]
    rfl
  refine ⟨_, ht, ?_, ?_, ?_, ?_, ?_⟩
  · simp only
    rw [Finmap.mem_erase]
    exact fun h => h.1 rfl
  · intro room hroom hmem
    simp only at hroom
    obtain ⟨r, hr⟩ := List.mem_iff_getElem?.1 hroom
    have hat : roomAt rooms1 (r : Int) = some room := by
      unfold roomAt
      rw [if_pos (by omega)]
      simpa using hr
    have := not_mem_membersOf_eraseIf hm hc hr1 (r : Int)
    rw [membersOf_of_roomAt hat] at this
    exact this hmem
  · intro h hne
    simp only
    exact Finmap.lookup_erase_ne hne
  · intro h p hne
    simp only
    rw [membersOf_eraseIf hr1]
    split <;> simp [hne]
  · exact names_eq_of_rooms hlen (fun r room1 hr =>
      let ⟨room0, h0, hn, _⟩ := hspec r room1 hr
      ⟨room0, h0, hn⟩)

theorem teardown_cleans_up_witness :
    Reachable demo ∧ demo.clients.lookup 4 = some ⟨4, "alice", 0⟩ ∧
    ∃ st1 : Registry, teardown demo 4 = some st1 ∧ (4 : Int) ∉ st1.clients ∧
      (∀ room ∈ st1.rooms, (4 : Int) ∉ room.clients) := by
  refine ⟨demo_reachable, by decide, ?_⟩
  obtain ⟨st1, h1, h2, h3, _⟩ :=
    (teardown_cleans_up demo demo_reachable 4 ⟨4, "alice", 0⟩ (by decide)).1
  exact ⟨st1, h1, h2, h3⟩

/-! ## The room list only grows (C17) -/

theorem mutation_names_kept {st st1 : Registry} {sock : Int} (hreg : sock ∈ st.clients)
    (hmut : Mutation st sock st1) :
    st.rooms.map Room.name <+: st1.rooms.map Room.name := by
  obtain ⟨c, hc⟩ := Finmap.mem_iff.1 hreg
  cases hmut with
  | same => exact List.prefix_refl _
  | nick name _ => exact List.prefix_refl _
  | create rname _ =>
    simp only [List.map_append]
    exact List.prefix_append _ _
  | join id target st1 _ _ hj =>
    obtain ⟨_, _, hlen, _, hspec⟩ := joinState_spec hc hj
    rw [names_eq_of_rooms hlen (fun r room1 hr =>
      let ⟨room0, h0, hn, _⟩ := hspec r room1 hr
      ⟨room0, h0, hn⟩)]
  | exit c1 rooms1 _ _ he =>
    obtain ⟨_, _, hlen, hspec⟩ := eraseMember_spec he
    simp only
    rw [names_eq_of_rooms hlen (fun r room1 hr =>
      let ⟨room0, h0, hn, _⟩ := hspec r room1 hr
      ⟨room0, h0, hn⟩)]

/-- C17: the room list is append-only with stable indices. For every registry
and every step from it (an accept, a unit of a registered client, the teardown of
a registered client), the room names before the step are a prefix of the room
names after it, so no room is deleted, reordered or renamed and the list does
not shrink; and a `/create` issued below the room limit returns with exactly one
room added, at the index equal to the old length, with empty membership and the
given name, every earlier room and the client table as they were. -/
theorem room_list_append_only (st : Registry) :
    (∀ cs : Int, st.rooms.map Room.name <+: (acceptClient st cs).1.rooms.map Room.name) ∧
    (∀ (sock : Int) (buf : String) (out : Outcome), sock ∈ st.clients →
      handleUnit st sock buf = some out →
      st.rooms.map Room.name <+: out.state.rooms.map Room.name) ∧
    (∀ (sock : Int) (st1 : Registry), sock ∈ st.clients → teardown st sock = some st1 →
      st.rooms.map Room.name <+: st1.rooms.map Room.name) ∧
    (∀ (sock : Int) (buf : String) (rest : List Char),
      readWord (cstr buf.data) = ("/create", rest) →
      (st.rooms.length : Int) < MAX_ROOMS →
      handleUnit st sock buf
        = some ⟨⟨st.rooms ++ [⟨(readWord rest).1, ∅⟩], st.clients⟩,
            [(sock, "Room created\n")], false, []⟩ ∧
      (st.rooms ++ [(⟨(readWord rest).1, ∅⟩ : Room)])[st.rooms.length]?
        = some ⟨(readWord rest).1, ∅⟩) := by
  refine ⟨?_, ?_, ?_, ?_⟩
  · intro cs
    rw [acceptClient_rooms]
  · intro sock buf out hreg hu
    exact mutation_names_kept hreg (handleUnit_mutation hreg hu)
  · intro sock st1 hreg ht
    obtain ⟨c, hc⟩ := Finmap.mem_iff.1 hreg
    obtain ⟨rooms1, he, rfl⟩ := teardown_unfold hc ht
    obtain ⟨hlen, hspec⟩ := eraseIf_spec he
    simp only
    rw [names_eq_of_rooms hlen (fun r room1 hr =>
      let ⟨room0, h0, hn, _⟩ := hspec r room1 hr
      ⟨room0, h0, hn⟩)]
  · intro sock buf rest hcmd hlt
    constructor
    · rw [handleUnit_create st sock hcmd]
      unfold cmdCreate
      simp only
      rw [if_neg (by omega)]
    · simp

theorem room_list_append_only_witness :
    handleUnit demo 4 "/create attic\n"
      = some ⟨⟨demo.rooms ++ [⟨"attic", ∅⟩], demo.clients⟩, [(4, "Room created\n")], false, []⟩ ∧
    (demo.rooms ++ [(⟨"attic", ∅⟩ : Room)])[demo.rooms.length]? = some ⟨"attic", ∅⟩ :=
  (room_list_append_only demo).2.2.2 4 "/create attic\n"
    [' ', 'a', 't', 't', 'i', 'c', '\n'] (by decide) (by decide)

/-! ## Sends and registry accesses against the mutex (C18, C19) -/

theorem sendsOf_sendEvents_append (l : List Send) (es : List Event) :
    sendsOf (sendEvents l ++ es) = l ++ sendsOf es := by
  induction l with
  | nil => rfl
  | cons a t ih =>
    obtain ⟨h, m⟩ := a
    simp only [sendEvents, List.map_cons, List.cons_append, sendsOf, List.cons.injEq, true_and]
    exact ih

theorem sendsOf_lockedBlock_append (l : List Send) (es : List Event) :
    sendsOf (lockedBlock l ++ es) = l ++ sendsOf es := by
  simp only [lockedBlock, List.cons_append, List.append_assoc, sendsOf, List.append_eq]
  rw [sendsOf_sendEvents_append]
  simp only [List.cons_append, List.nil_append, sendsOf]

theorem sendsOf_lockedBlock (l : List Send) : sendsOf (lockedBlock l) = l := by
  have := sendsOf_lockedBlock_append l []
  simpa [sendsOf] using this

theorem heldSends_sendEvents_append (b : Bool) (l : List Send) (es : List Event) :
    heldSends b (sendEvents l ++ es) = (if b = true then l else []) ++ heldSends b es := by
  induction l with
  | nil => cases b <;> rfl
  | cons a t ih =>
    obtain ⟨h, m⟩ := a
    cases b
    · simp only [sendEvents, List.map_cons, List.cons_append, heldSends] at ih ⊢
      simpa using ih
    · simp only [sendEvents, List.map_cons, List.cons_append, heldSends] at ih ⊢
      simpa using ih

theorem heldSends_lockedBlock_append (b : Bool) (l : List Send) (es : List Event) :
    heldSends b (lockedBlock l ++ es) = l ++ heldSends false es := by
  simp only [lockedBlock, List.cons_append, List.append_assoc, heldSends, List.append_eq]
  rw [heldSends_sendEvents_append]
  simp only [if_true, List.cons_append, List.nil_append, heldSends]

theorem heldSends_lockedBlock (b : Bool) (l : List Send) :
    heldSends b (lockedBlock l) = l := by
  have := heldSends_lockedBlock_append b l []
  simpa [heldSends] using this

/-- The sends of one `broadcast` call are all made after the guard is gone. -/
theorem heldSends_broadcastTrace_append {st : Registry} {room_id except : Int} {msg : String}
    {t : List Event} (h : broadcastTrace st room_id msg except = some t) (b : Bool)
    (es : List Event) : heldSends b (t ++ es) = heldSends false es := by
  unfold broadcastTrace at h
  rw [Option.map_eq_some'] at h
  obtain ⟨x, _, rfl⟩ := h
  simp only [List.cons_append, heldSends, List.append_eq]
  rw [heldSends_sendEvents_append]
  simp

theorem cmdNick_sends_to_sock (st : Registry) (sock : Int) (rest : List Char) :
    ∀ s ∈ (cmdNick st sock rest).sends, s.1 = sock := by
  unfold cmdNick
  simp only
  split
  · simp
  · split <;> simp

theorem cmdCreate_sends_to_sock (st : Registry) (sock : Int) (rest : List Char) :
    ∀ s ∈ (cmdCreate st sock rest).sends, s.1 = sock := by
  unfold cmdCreate
  simp only
  split <;> simp

theorem cmdExit_sends_to_sock {st : Registry} {sock : Int} {out : Outcome}
    (h : cmdExit st sock = some out) : ∀ s ∈ out.sends, s.1 = sock := by
  unfold cmdExit at h
  simp only at h
  split at h
  · rw [Option.map_eq_some'] at h
    obtain ⟨_, _, rfl⟩ := h
    simp
  · simp only [Option.some.injEq] at h
    subst h
    simp

/-- The sends that `/join` makes with the guard in scope: at most the reply. -/
theorem joinTrace_held {st : Registry} {sock : Int} {rest : List Char} {tr : List Event}
    (h : joinTrace st sock rest = some tr) : ∀ s ∈ heldSends false tr, s.1 = sock := by
  unfold joinTrace at h
  split at h
  · simp only [Option.some.injEq] at h
    subst h
    simp [heldSends]
  · rename_i id _
    split at h
    · simp only [Option.some.injEq] at h
      subst h
      rw [heldSends_lockedBlock]
      simp
    · rw [Option.bind_eq_some] at h
      obtain ⟨target, _, h⟩ := h
      split at h
      · simp only [Option.some.injEq] at h
        subst h
        rw [heldSends_lockedBlock]
        simp
      · rw [Option.map_eq_some'] at h
        obtain ⟨st1, _, rfl⟩ := h
        rw [heldSends_lockedBlock]
        simp

theorem chatTrace_held {st : Registry} {sock : Int} {text : List Char} {tr : List Event}
    (h : chatTrace st sock text = some tr) : heldSends false tr = [] := by
  unfold chatTrace at h
  simp only at h
  split at h
  · split at h
    · rw [Option.map_eq_some'] at h
      obtain ⟨t, ht, rfl⟩ := h
      simp only [heldSends]
      have := heldSends_broadcastTrace_append ht false []
      simpa [heldSends] using this
    · simp only [Option.some.injEq] at h
      subst h
      rfl
  · simp only [Option.some.injEq] at h
    subst h
    rfl

/-- The sends recorded in the events of `/join` are the sends of `cmdJoin`. -/
theorem joinTrace_sends (st : Registry) (sock : Int) (rest : List Char) :
    (joinTrace st sock rest).map sendsOf = (cmdJoin st sock rest).map Outcome.sends := by
  unfold joinTrace cmdJoin
  cases readInt rest with
  | none => rfl
  | some id =>
    simp only
    split
    · simp only [Option.map_some', sendsOf_lockedBlock]
    · cases roomAt st.rooms id with
      | none => rfl
      | some target =>
        simp only [Option.some_bind]
        split
        · simp only [Option.map_some', sendsOf_lockedBlock]
        · cases joinState st sock id with
          | none => rfl
          | some st1 => simp only [Option.map_some', sendsOf_lockedBlock]

theorem chatTrace_sends (st : Registry) (sock : Int) (text : List Char) :
    (chatTrace st sock text).map sendsOf = (cmdChat st sock text).map Outcome.sends := by
  unfold chatTrace cmdChat
  simp only
  by_cases h1 : 0 ≤ (subscript st.clients sock).1.room_id
  · by_cases h2 : (subscript st.clients sock).1.nick ≠ ""
    · rw [if_pos h1, if_pos h2, if_pos ⟨h1, h2⟩]
      unfold broadcastTrace
      cases broadcast _ _ _ sock with
      | none => rfl
      | some b =>
        simp only [Option.map_some', sendsOf, Option.some.injEq]
        have := sendsOf_sendEvents_append b.2 []
        simpa [sendsOf] using this
    · rw [if_pos h1, if_neg h2, if_neg (fun h => h2 h.2)]
      rfl
  · rw [if_neg h1, if_neg (fun h => h1 h.1)]
    rfl

/-- The events of a loop iteration record exactly the sends of `handleUnit`,
in the same order. -/
theorem unitTrace_sends (st : Registry) (sock : Int) (buf : String) :
    (unitTrace st sock buf).map sendsOf = (handleUnit st sock buf).map Outcome.sends := by
  unfold unitTrace handleUnit
  simp only
  split
  · simp only [Option.map_some', Option.some.injEq]
    unfold cmdNick
    simp only
    split
    · rfl
    · rw [sendsOf_lockedBlock]
  split
  · simp only [Option.map_some', sendsOf_lockedBlock]
  split
  · simp only [Option.map_some', sendsOf_lockedBlock]
  split
  · exact joinTrace_sends st sock _
  split
  · simp only [Option.map_some', sendsOf_lockedBlock]
  split
  · cases cmdExit st sock with
    | none => rfl
    | some out => simp only [Option.map_some', sendsOf_lockedBlock]
  split
  · rfl
  · exact chatTrace_sends st sock _

/-- C18, as stated, fails: the reply of `/nick` is sent inside the guarded
block. The events of the unit `/nick alice` of socket 4 are: lock, registry
access, send `"Nickname set\n"` to socket 4, unlock; the send is made while the
mutex is held. -/
theorem reply_sent_under_lock_counterexample :
    Reachable demoStart ∧
    unitTrace demoStart 4 "/nick alice\n"
      = some [Event.lock, Event.touch, Event.send 4 "Nickname set\n", Event.unlock] ∧
    heldSends false [Event.lock, Event.touch, Event.send 4 "Nickname set\n", Event.unlock]
      = [(4, "Nickname set\n")] :=
  ⟨demoStart_reachable, by decide, by decide⟩

/-- C18, amended: room fan-out never happens inside the registry's critical
section. For every registry: every call of `broadcast` makes all its sends with
the mutex released; in every loop iteration the sends made while the mutex is
held are addressed to the issuing socket (command replies) or belong to `/w`
(the whisper); an iteration for an ordinary chat unit makes no send while the
mutex is held; the sends of the recorded events are the sends of the step; and
the `broadcast` calls that a `/join` makes after its guarded block make all
their sends with the mutex released, on whatever registry they run. -/
theorem fanout_outside_lock (st : Registry) (sock : Int) (buf : String) (tr : List Event)
    (h : unitTrace st sock buf = some tr) :
    (∀ s ∈ heldSends false tr, s.1 = sock ∨ (readWord (cstr buf.data)).1 = "/w") ∧
    ((readWord (cstr buf.data)).1 ∉ commandWords → heldSends false tr = []) ∧
    (∀ (room_id except : Int) (msg : String) (t : List Event),
      broadcastTrace st room_id msg except = some t → heldSends false t = []) ∧
    (handleUnit st sock buf).map Outcome.sends = some (sendsOf tr) ∧
    (∀ out : Outcome, handleUnit st sock buf = some out →
      ∀ call ∈ out.calls, ∀ (st2 : Registry) (t : List Event),
        broadcastTrace st2 call.room_id call.msg call.except = some t →
        heldSends false t = []) := by
  refine ⟨?_, ?_, ?_, ?_, ?_⟩
  · unfold unitTrace at h
    simp only at h
    split at h
    · simp only [Option.some.injEq] at h
      subst h
      split
      · simp [heldSends]
      · rw [heldSends_lockedBlock]
        exact fun s hs => Or.inl (cmdNick_sends_to_sock st sock _ s hs)
    split at h
    · simp only [Option.some.injEq] at h
      subst h
      rw [heldSends_lockedBlock]
      simp [cmdList]
    split at h
    · simp only [Option.some.injEq] at h
      subst h
      rw [heldSends_lockedBlock]
      exact fun s hs => Or.inl (cmdCreate_sends_to_sock st sock _ s hs)
    split at h
    · exact fun s hs => Or.inl (joinTrace_held h s hs)
    split at h
    · rename_i hw
      exact fun s _ => Or.inr hw
    split at h
    · rw [Option.map_eq_some'] at h
      obtain ⟨out, hout, rfl⟩ := h
      rw [heldSends_lockedBlock]
      exact fun s hs => Or.inl (cmdExit_sends_to_sock hout s hs)
    split at h
    · simp only [Option.some.injEq] at h
      subst h
      simp [heldSends]
    · rw [chatTrace_held h]
      simp
  · intro hcmd
    simp only [commandWords, List.mem_cons, List.mem_singleton, List.not_mem_nil, or_false,
      not_or] at hcmd
    obtain ⟨n1, n2, n3, n4, n5, n6, n7⟩ := hcmd
    unfold unitTrace at h
    simp only at h
    rw [if_neg n1, if_neg n2, if_neg n3, if_neg n4, if_neg n5, if_neg n6, if_neg n7] at h
    exact chatTrace_held h
  · intro room_id except msg t ht
    have := heldSends_broadcastTrace_append ht false []
    simpa [heldSends] using this
  · rw [← unitTrace_sends, h]
    rfl
  · intro out _ call _ st2 t ht
    have := heldSends_broadcastTrace_append ht false []
    simpa [heldSends] using this

theorem fanout_outside_lock_witness :
    unitTrace demo 4 "hello\n"
      = some [Event.touch, Event.touch, Event.touch, Event.lock, Event.touch, Event.unlock,
          Event.send 5 "alice: hello\n"] ∧
    heldSends false [Event.touch, Event.touch, Event.touch, Event.lock, Event.touch,
      Event.unlock, Event.send 5 "alice: hello\n"] = [] :=
  ⟨by decide,
    (fanout_outside_lock demo 4 "hello\n" _ (by decide)).2.1 (by decide)⟩

/-- C19, the code at the failing input: the iteration for the ordinary chat
unit `hello` of socket 4 evaluates `clients[sock]` three times before `broadcast`
takes the mutex: three registry accesses are made with the mutex not held. -/
theorem chat_reads_registry_without_lock :
    Reachable demo ∧ demo.clients.lookup 4 = some ⟨4, "alice", 0⟩ ∧
    unitTrace demo 4 "hello\n"
      = some [Event.touch, Event.touch, Event.touch, Event.lock, Event.touch, Event.unlock,
          Event.send 5 "alice: hello\n"] ∧
    unguardedTouches false [Event.touch, Event.touch, Event.touch, Event.lock, Event.touch,
      Event.unlock, Event.send 5 "alice: hello\n"] = 3 :=
  ⟨demo_reachable, by decide, by decide, by decide⟩

/-! ## The notices of a join, each at its own snapshot (C20) -/

theorem demoCrowd_reachable : Reachable demoCrowd :=
  Reachable.unit demo 6 "/join 0\n" ⟨demoCrowd, [(6, "Joined room\n")], false, []⟩
    demo_reachable (by decide) (by decide)

/-- The room list never gets shorter along later steps. -/
theorem later_length {st st2 : Registry} (h : Later st st2) :
    st.rooms.length ≤ st2.rooms.length := by
  induction h with
  | here => exact Nat.le_refl _
  | accept st1 cs _ ih =>
    rw [acceptClient_rooms]
    exact ih
  | unit st1 sock buf out _ hreg hu ih =>
    have hp := (mutation_names_kept hreg (handleUnit_mutation hreg hu)).length_le
    simp only [List.length_map] at hp
    omega
  | close st1 st2 sock _ hreg ht ih =>
    obtain ⟨c, hc⟩ := Finmap.mem_iff.1 hreg
    obtain ⟨rooms1, he, rfl⟩ := teardown_unfold hc ht
    obtain ⟨hlen, _⟩ := eraseIf_spec he
    simp only
    omega

/-- A call whose room index is valid when it is left behind returns on every
later registry, and sends its message once to each member, at that moment, of
its room other than the excluded handle, and to nobody else. -/
theorem runCall_later {st1 st2 : Registry} (hl : Later st1 st2) (call : Call)
    (h0 : 0 ≤ call.room_id) (h1 : call.room_id < (st1.rooms.length : Int)) :
    ∃ sends : List Send, runCall st2 call = some (st2, sends) ∧
      (∀ p ∈ sends, p.2 = call.msg) ∧
      (∀ h : Int, h ∈ membersOf st2.rooms call.room_id → h ≠ call.except →
        sends.countP (fun p => decide (p.1 = h)) = 1) ∧
      (∀ h : Int, (h ∉ membersOf st2.rooms call.room_id ∨ h = call.except) →
        ∀ m : String, (h, m) ∉ sends) := by
  have hlen := later_length hl
  obtain ⟨room, hroom⟩ := @roomAt_of_lt st2.rooms _ h0 (by omega)
  refine ⟨fanout room.clients call.msg call.except, ?_, ?_⟩
  · unfold runCall
    exact broadcast_eq_fanout hroom _ _
  · rw [membersOf_of_roomAt hroom]
    exact fanout_spec room.clients call.msg call.except

/-- C20, as stated, fails: socket 6 is a remaining member of room 0, and not a
member of room 1, when `alice` (socket 4) joins room 1 from room 0. The guarded
block of `alice` ends and leaves the two calls behind; before they run, socket 6
itself joins room 1. The leave notice then goes to `bob` alone, and the join
notice goes to socket 6: a remaining member of the previous room gets no leave
notice, and a handle that was outside room 1 at the join gets the join notice. -/
theorem join_notices_interleaved_counterexample :
    Reachable demoCrowd ∧
    (6 : Int) ∈ membersOf demoCrowd.rooms 0 ∧ (6 : Int) ∉ membersOf demoCrowd.rooms 1 ∧
    handleUnit demoCrowd 4 "/join 1\n"
      = some ⟨crowdAfterAlice, [(4, "Joined room\n")], false,
          [⟨0, "alice left room 0\n", 4⟩, ⟨1, "alice joined room 1\n", 4⟩]⟩ ∧
    handleUnit crowdAfterAlice 6 "/join 1\n"
      = some ⟨crowdAfterBoth, [(6, "Joined room\n")], false, [⟨0, " left room 0\n", 6⟩]⟩ ∧
    runCall crowdAfterBoth ⟨0, "alice left room 0\n", 4⟩
      = some (crowdAfterBoth, [(5, "alice left room 0\n")]) ∧
    runCall crowdAfterBoth ⟨1, "alice joined room 1\n", 4⟩
      = some (crowdAfterBoth, [(6, "alice joined room 1\n")]) :=
  ⟨demoCrowd_reachable, by decide, by decide, by decide, by decide, by decide, by decide⟩

/-- C20, amended: the room-change notices of a successful `/join` go to the
audiences of their own snapshots. For every reachable registry, registered
client `c` on `sock` with nickname `n` and unit reading as `/join id` that
succeeds: the guarded block sends only `"Joined room\n"`, to `c`, and leaves
behind, in this order, the leave call (room: the previous room; message: `n`,
`" left room "`, its decimal index, newline) exactly when there was a previous
room, and the join call (room: `id`; message: `n`, `" joined room "`, the decimal
`id`, newline) exactly when `n` is set, both excluding `c`. Each call, run on
any later registry, returns and sends its message exactly once to each handle
that is in its room at that moment, other than `c`, and nothing to `c` or to a
handle outside that room. Right after the guarded block, every handle other than
`c` is in exactly the rooms it was in before the join: when no other session acts
before the calls run, the audiences are the remaining members of the previous
room and the members of room `id` other than `c`. -/
theorem join_notices_at_snapshot (st : Registry) (hreach : Reachable st) (sock : Int)
    (c : Client) (buf : String) (rest : List Char) (id : Int) (target : Room)
    (hc : st.clients.lookup sock = some c)
    (hcmd : readWord (cstr buf.data) = ("/join", rest)) (hid : readInt rest = some id)
    (ht : roomAt st.rooms id = some target)
    (hfree : target.clients.card < MAX_CLIENTS_PER_ROOM) :
    ∃ out : Outcome, handleUnit st sock buf = some out ∧
      out.sends = [(sock, "Joined room\n")] ∧
      out.calls =
        (if 0 ≤ c.room_id then
            [(⟨c.room_id, c.nick ++ " left room " ++ toString c.room_id ++ "\n", sock⟩ : Call)]
          else []) ++
        (if c.nick ≠ "" then
            [(⟨id, c.nick ++ " joined room " ++ toString id ++ "\n", sock⟩ : Call)]
          else []) ∧
      (∀ call ∈ out.calls, ∀ st2 : Registry, Later out.state st2 →
        ∃ sends : List Send, runCall st2 call = some (st2, sends) ∧
          (∀ p ∈ sends, p.2 = call.msg) ∧
          (∀ h : Int, h ∈ membersOf st2.rooms call.room_id → h ≠ sock →
            sends.countP (fun p => decide (p.1 = h)) = 1) ∧
          (∀ h : Int, (h ∉ membersOf st2.rooms call.room_id ∨ h = sock) →
            ∀ m : String, (h, m) ∉ sends)) ∧
      (∀ h p : Int, h ≠ sock →
        (h ∈ membersOf out.state.rooms p ↔ h ∈ membersOf st.rooms p)) := by
  have hm := membership_reachable hreach
  obtain ⟨st1, hj, hout⟩ := cmdJoin_success hm hc hid ht hfree
  obtain ⟨h0, hlt, hlen, _, _⟩ := joinState_spec hc hj
  have hrange := hm.range sock c hc
  rw [handleUnit_join st sock hcmd, hout]
  refine ⟨_, rfl, rfl, rfl, ?_, ?_⟩
  · intro call hcall st2 hl
    have hprop : call.except = sock ∧ 0 ≤ call.room_id ∧
        call.room_id < (st1.rooms.length : Int) := by
      simp only [List.mem_append] at hcall
      rcases hcall with h1 | h1
      · split at h1
        · rename_i hp
          simp only [List.mem_singleton] at h1
          rw [h1]
          exact ⟨rfl, hp, by simp only; omega⟩
        · cases h1
      · split at h1
        · simp only [List.mem_singleton] at h1
          rw [h1]
          exact ⟨rfl, h0, by simp only; omega⟩
        · cases h1
    obtain ⟨hex, hc0, hc1⟩ := hprop
    have := runCall_later hl call hc0 hc1
    rw [hex] at this
    exact this
  · intro h p hne
    exact mem_membersOf_joinState_ne hc hj hne p

theorem join_notices_at_snapshot_witness :
    Reachable demo ∧ demo.clients.lookup 4 = some ⟨4, "alice", 0⟩ ∧
    roomAt demo.rooms 1 = some ⟨"den", ∅⟩ ∧
    ∃ out : Outcome, handleUnit demo 4 "/join 1\n" = some out ∧
      out.sends = [(4, "Joined room\n")] ∧
      out.calls = [⟨0, "alice left room 0\n", 4⟩, ⟨1, "alice joined room 1\n", 4⟩] ∧
      ∀ call ∈ out.calls, ∀ st2 : Registry, Later out.state st2 →
        ∃ sends : List Send, runCall st2 call = some (st2, sends) ∧
          (∀ p ∈ sends, p.2 = call.msg) := by
  refine ⟨demo_reachable, by decide, by decide, ?_⟩
  obtain ⟨out, h1, h2, h3, h4, _⟩ :=
    join_notices_at_snapshot demo demo_reachable 4 ⟨4, "alice", 0⟩ "/join 1\n"
      [' ', '1', '\n'] 1 ⟨"den", ∅⟩ (by decide) (by decide) (by decide) (by decide)
      (by decide)
  refine ⟨out, h1, h2, ?_, ?_⟩
  · rw [h3]
    decide
  · intro call hcall st2 hl
    obtain ⟨sends, hs, hmsg, _⟩ := h4 call hcall st2 hl
    exact ⟨sends, hs, hmsg⟩

end ChatServer
